import Mathlib

set_option maxHeartbeats 1000000
set_option maxRecDepth 4000

/-!
# Verification of the `diff_dirs` comparison engine

This file is a shallow embedding of `src/diff_dirs.py` — the directory
comparison engine of the `diff_dirs` repository — together with theorems
settling the specification claims about it.

Modelling conventions:

* Bytes are `Nat` (values `0 ≤ b ≤ 255` by convention, as produced by file
  reads).
* A file, as observed during one run, is an `FsFile`: the outcome of reading
  its bytes (`none` models an `OSError` on open/read), the outcome of
  `stat()` (`none` models `stat` raising), and the value of `Path.exists()`.
* A directory's contents are an `FsNode`, a first-child/next-sibling tree of
  named files and named subdirectories (isomorphic to the usual rose tree,
  but admitting plain structural recursion).
* The MD5 digest of `file_hash` is modelled as the byte content itself
  (an injective digest): digest equality in the model is byte equality,
  which is exactly what the digest is used for in the program.
* Python exceptions that escape a function are modelled with
  `Except Unit`: `.error ()` is a raised `OSError`.
-/

/-- A file as observed during one comparison run: the result of reading its
bytes (`none` = the open/read raised `OSError`), the result of `stat()`
(`none` = `stat()` raised), and what `Path.exists()` returns. -/
structure FsFile where
  bytes : Option (List Nat)
  size : Option Nat
  ex : Bool
deriving DecidableEq

/-- Contents of a directory, in first-child/next-sibling form: either no more
entries, a named file followed by the remaining entries, or a named
subdirectory (with its own contents) followed by the remaining entries. -/
inductive FsNode (α : Type) where
  | nilE : FsNode α
  | fileE : String → α → FsNode α → FsNode α
  | dirE : String → FsNode α → FsNode α → FsNode α
deriving DecidableEq

namespace FsNode

/-- Map a function over the file payloads of a tree. -/
def mapFiles {α β : Type} (f : α → β) : FsNode α → FsNode β
  | .nilE => .nilE
  | .fileE n a rest => .fileE n (f a) (mapFiles f rest)
  | .dirE n ch rest => .dirE n (mapFiles f ch) (mapFiles f rest)

/-- All files of a tree, as (path components, payload) pairs. -/
def walkAll {α : Type} : FsNode α → List (List String × α)
  | .nilE => []
  | .fileE n a rest => ([n], a) :: walkAll rest
  | .dirE n ch rest => (walkAll ch).map (fun pr => (n :: pr.1, pr.2)) ++ walkAll rest

/-- All directory and file names of the tree avoid the path separator. Real
filesystems guarantee this; the model states it explicitly. -/
def namesOk {α : Type} : FsNode α → Bool
  | .nilE => true
  | .fileE n _ rest => !(n.data.contains '/') && namesOk rest
  | .dirE n ch rest => !(n.data.contains '/') && namesOk ch && namesOk rest

end FsNode

/-- Join path components with `/`, as `str(full.relative_to(base))` does
(the spec normalizes relative paths to forward slashes). -/
def joinPath : List String → String
  | [] => ""
  | [c] => c
  | c :: rest => c ++ "/" ++ joinPath rest

/-- Boolean prefix test on character lists. -/
def pyIsPrefix : List Char → List Char → Bool
  | [], _ => true
  | _ :: _, [] => false
  | p :: ps, c :: cs => (p == c) && pyIsPrefix ps cs

/-- `s.startswith(p)` of Python: `p` is a prefix of `s`. -/
def pyStartsWith (s p : String) : Bool := pyIsPrefix p.data s.data

/-- Lowercase a string (`str.lower()`; ASCII case folding suffices for the
extensions the program compares). -/
def lowerStr (s : String) : String := String.mk (s.data.map Char.toLower)

/-- Uppercase a string (`str.upper()`). -/
def upperStr (s : String) : String := String.mk (s.data.map Char.toUpper)

/-- The final component of a path (`PurePath.name`): everything after the
last `/`. -/
def path_name (s : String) : String :=
  String.mk ((s.data.reverse.takeWhile (fun c => c ≠ '/')).reverse)

/-- Index of the last `.` in a list of characters, if any. -/
def rlastDot (cs : List Char) : Option Nat :=
  match (cs.reverse.findIdx? (fun c => c = '.')) with
  | some k => some (cs.length - 1 - k)
  | none => none

/-- `PurePath.suffix`: from the final component `name`, with
`i = name.rfind('.')`, the result is `name[i:]` when `0 < i < len(name) - 1`
and `''` otherwise. -/
def path_suffix (s : String) : String :=
  let name := (path_name s).data
  match rlastDot name with
  | some i => if 0 < i ∧ i < name.length - 1 then String.mk (name.drop i) else ""
  | none => ""

/-- `BINARY_EXTENSIONS` of `diff_dirs.py` (the source set literal contains
`.ico` twice; membership is unaffected). -/
def BINARY_EXTENSIONS : List String :=
  [".png", ".jpg", ".jpeg", ".gif", ".bmp", ".ico", ".webp", ".svg", ".tiff",
   ".woff", ".woff2", ".ttf", ".eot", ".otf",
   ".pdf", ".zip", ".tar", ".gz", ".7z", ".rar", ".jar", ".war", ".class",
   ".mp3", ".mp4", ".avi", ".mov", ".wav", ".flac", ".ogg", ".webm",
   ".exe", ".dll", ".so", ".dylib", ".bin", ".msi",
   ".sqlite", ".db", ".db-journal", ".db-shm", ".db-wal",
   ".pyc", ".pyo", ".o", ".obj", ".a", ".lib",
   ".icns", ".cur"]

/-- `LANG_MAP` of `diff_dirs.py`. -/
def LANG_MAP : List (String × String) :=
  [(".ts", "TypeScript"), (".tsx", "React TSX"), (".js", "JavaScript"), (".jsx", "React JSX"),
   (".java", "Java"), (".py", "Python"), (".css", "CSS"), (".scss", "SCSS"),
   (".html", "HTML"), (".json", "JSON"), (".yaml", "YAML"), (".yml", "YAML"),
   (".xml", "XML"), (".md", "Markdown"), (".sql", "SQL"), (".sh", "Shell"),
   (".env", "Environment"), (".properties", "Properties"), (".gradle", "Gradle"),
   (".toml", "TOML"), (".cfg", "Config"), (".log", "Log"), (".txt", "Text"),
   (".ini", "INI"), (".conf", "Config"), (".bat", "Batch"), (".ps1", "PowerShell")]

/-- `get_lang`: look the lowercased extension up in `LANG_MAP`; otherwise
`ext.upper().lstrip(".")` when the extension is nonempty, else `"Unknown"`. -/
def get_lang (s : String) : String :=
  let ext := lowerStr (path_suffix s)
  match LANG_MAP.find? (fun p => p.1 == ext) with
  | some p => p.2
  | none => if ext = "" then "Unknown" else String.mk ((upperStr ext).data.dropWhile (fun c => c = '.'))

/-! ## Shell-glob matching (`fnmatch.fnmatch`) -/

/-- Scan for the closing `]` of a character class, accumulating (reversed)
the class body; `none` when there is no closing `]`. -/
def findClose (acc : List Char) : List Char → Option (List Char × List Char)
  | [] => none
  | ']' :: rest => some (acc.reverse, rest)
  | c :: rest => findClose (c :: acc) rest

/-- Parse a character class right after `[`: an optional leading `!`
(negation), a `]` occurring first is a literal member, then the body up to
the closing `]`. Returns `(negated, body, rest of pattern)`. -/
def classSpec (cs : List Char) : Option (Bool × List Char × List Char) :=
  let p := match cs with
    | '!' :: t => (true, t)
    | _ => (false, cs)
  match p.2 with
  | ']' :: t => (findClose [']'] t).map (fun q => (p.1, q.1, q.2))
  | other => (findClose [] other).map (fun q => (p.1, q.1, q.2))

/-- Match one character against a class body, honouring `a-b` ranges. -/
def classMatch : List Char → Char → Bool
  | a :: '-' :: b :: rest, c => (a ≤ c && c ≤ b) || classMatch rest c
  | a :: rest, c => (a = c) || classMatch rest c
  | [], _ => false

/-- Shell-glob matching of a whole name against a pattern (`*`, `?`,
`[...]` with ranges and `!` negation; an unclosed `[` is a literal). -/
def globMatch : List Char → List Char → Bool
  | [], [] => true
  | [], _ :: _ => false
  | '*' :: ps, ns =>
      globMatch ps ns ||
        (match ns with
         | [] => false
         | _ :: ns' => globMatch ('*' :: ps) ns')
  | '?' :: ps, _ :: ns => globMatch ps ns
  | '[' :: ps, n :: ns =>
      (match classSpec ps with
       | some q => (if q.1 then !(classMatch q.2.1 n) else classMatch q.2.1 n) && globMatch q.2.2 ns
       | none => ('[' = n) && globMatch ps ns)
  | c :: ps, n :: ns => (c = n) && globMatch ps ns
  | _ :: _, [] => false
termination_by ps ns => (ns.length, ps.length)

/-- `matches_ignore`: does the filename match any ignore pattern? -/
def matches_ignore (filename : String) (patterns : List String) : Bool :=
  patterns.any (fun p => globMatch p.data filename.data)

/-! ## Configuration and file collection -/

/-- The fields of the loaded `Config` that the comparison engine reads. -/
structure Config where
  ignore_dirs : List String
  ignore_files : List String
  extensions : Option (List String)
  show_content : Bool
  context_lines : Nat

/-- Should a file with this name be collected? It is skipped when it matches
an ignore pattern, or when the extension allow-list is active (non-`None`
and nonempty, Python truthiness) and its lowercased suffix is not in it. -/
def keepFile (cfg : Config) (fname : String) : Bool :=
  !(matches_ignore fname cfg.ignore_files) &&
  !((match cfg.extensions with
     | some l => !l.isEmpty
     | none => false) &&
    !((cfg.extensions.getD []).contains (lowerStr (path_suffix fname))))

/-- The recursive walk of `collect_files`: at each directory, subdirectories
whose name is in `ignore_dirs` are pruned from descent (the
`dirs[:] = [d for d in dirs if d not in ignore_dirs]` line); files are
filtered by `keepFile`. Produces paths as component lists. -/
def collectComps {α : Type} (cfg : Config) : FsNode α → List (List String)
  | .nilE => []
  | .fileE n _ rest =>
      (if keepFile cfg n then [[n]] else []) ++ collectComps cfg rest
  | .dirE n ch rest =>
      (if cfg.ignore_dirs.contains n then [] else (collectComps cfg ch).map (fun p => n :: p))
        ++ collectComps cfg rest

/-- `collect_files`: the set of collected relative paths (the Python function
returns a `set`; the model returns the deduplicated list). -/
def collect_files (t : FsNode FsFile) (cfg : Config) : List String :=
  ((collectComps cfg t).map joinPath).dedup

/-- Resolve a relative path against a tree, like opening `base / rel` on the
filesystem that was walked. A path not present behaves as a file on which
every operation fails (`open`/`stat` raise, `exists()` is false). -/
def getFile (t : FsNode FsFile) (rel : String) : FsFile :=
  match (FsNode.walkAll t).find? (fun pr => joinPath pr.1 == rel) with
  | some pr => pr.2
  | none => ⟨none, none, false⟩

/-! ## Per-file helpers of `diff_dirs.py` -/

/-- `file_hash`: MD5 over the whole byte stream, `None` on `OSError`.
The digest is modelled injectively as the byte content itself, so digest
equality is byte equality. -/
def file_hash (f : FsFile) : Option (List Nat) := f.bytes

/-- `is_binary`: true when the lowercased path suffix is a known binary
extension; otherwise sniff the first 8192 bytes for a NUL byte; a read
failure also yields true. -/
def is_binary (filepath : String) (f : FsFile) : Bool :=
  if BINARY_EXTENSIONS.contains (lowerStr (path_suffix filepath)) then true
  else
    match f.bytes with
    | none => true
    | some bs => (bs.take 8192).contains 0

/-- Strict UTF-8 decoding of a byte sequence to code points (Python's
`utf-8` codec): rejects truncated sequences, stray continuation bytes,
overlong encodings, surrogates and values above `U+10FFFF`. -/
def utf8Decode : List Nat → Option (List Char)
  | [] => some []
  | b :: rest =>
    if b < 0x80 then
      (utf8Decode rest).map (fun cs => Char.ofNat b :: cs)
    else if 0xC2 ≤ b ∧ b ≤ 0xDF then
      match rest with
      | c1 :: rest' =>
          if 0x80 ≤ c1 ∧ c1 ≤ 0xBF then
            (utf8Decode rest').map (fun cs => Char.ofNat ((b - 0xC0) * 64 + (c1 - 0x80)) :: cs)
          else none
      | [] => none
    else if 0xE0 ≤ b ∧ b ≤ 0xEF then
      match rest with
      | c1 :: c2 :: rest' =>
          let lo1 := if b = 0xE0 then 0xA0 else 0x80
          let hi1 := if b = 0xED then 0x9F else 0xBF
          if (lo1 ≤ c1 ∧ c1 ≤ hi1) ∧ (0x80 ≤ c2 ∧ c2 ≤ 0xBF) then
            (utf8Decode rest').map (fun cs =>
              Char.ofNat ((b - 0xE0) * 4096 + (c1 - 0x80) * 64 + (c2 - 0x80)) :: cs)
          else none
      | _ => none
    else if 0xF0 ≤ b ∧ b ≤ 0xF4 then
      match rest with
      | c1 :: c2 :: c3 :: rest' =>
          let lo1 := if b = 0xF0 then 0x90 else 0x80
          let hi1 := if b = 0xF4 then 0x8F else 0xBF
          if (lo1 ≤ c1 ∧ c1 ≤ hi1) ∧ (0x80 ≤ c2 ∧ c2 ≤ 0xBF) ∧ (0x80 ≤ c3 ∧ c3 ≤ 0xBF) then
            (utf8Decode rest').map (fun cs =>
              Char.ofNat ((b - 0xF0) * 262144 + (c1 - 0x80) * 4096 + (c2 - 0x80) * 64 + (c3 - 0x80)) :: cs)
          else none
      | _ => none
    else none

/-- `latin-1` decoding: every byte maps to the code point of the same value;
it never fails. -/
def latin1Decode (bs : List Nat) : List Char := bs.map Char.ofNat

/-- The `cp1252` remap table for bytes `0x80`–`0x9F` (the five bytes absent
from the table are undefined in Windows-1252 and make the codec fail). -/
def cp1252Table : List (Nat × Nat) :=
  [(0x80, 0x20AC), (0x82, 0x201A), (0x83, 0x0192), (0x84, 0x201E), (0x85, 0x2026),
   (0x86, 0x2020), (0x87, 0x2021), (0x88, 0x02C6), (0x89, 0x2030), (0x8A, 0x0160),
   (0x8B, 0x2039), (0x8C, 0x0152), (0x8E, 0x017D), (0x91, 0x2018), (0x92, 0x2019),
   (0x93, 0x201C), (0x94, 0x201D), (0x95, 0x2022), (0x96, 0x2013), (0x97, 0x2014),
   (0x98, 0x02DC), (0x99, 0x2122), (0x9A, 0x0161), (0x9B, 0x203A), (0x9C, 0x0153),
   (0x9E, 0x017E), (0x9F, 0x0178)]

/-- `cp1252` decoding of one byte. -/
def cp1252Byte (b : Nat) : Option Char :=
  if 0x80 ≤ b ∧ b ≤ 0x9F then
    match cp1252Table.find? (fun p => p.1 == b) with
    | some p => some (Char.ofNat p.2)
    | none => none
  else some (Char.ofNat b)

/-- `cp1252` decoding of a byte sequence. -/
def cp1252Decode : List Nat → Option (List Char)
  | [] => some []
  | b :: rest =>
      match cp1252Byte b, cp1252Decode rest with
      | some c, some cs => some (c :: cs)
      | _, _ => none

/-- Universal-newline translation of text mode: `\r\n` and lone `\r` become
`\n`. -/
def translateNewlines : List Char → List Char
  | [] => []
  | '\r' :: '\n' :: rest => '\n' :: translateNewlines rest
  | '\r' :: rest => '\n' :: translateNewlines rest
  | c :: rest => c :: translateNewlines rest

/-- `readlines()`: split into lines keeping the `\n` terminators; a final
unterminated chunk is its own line. `acc` holds the current line reversed. -/
def splitKeep (acc : List Char) : List Char → List String
  | [] => if acc.isEmpty then [] else [String.mk acc.reverse]
  | '\n' :: rest => String.mk (acc.reverse ++ ['\n']) :: splitKeep [] rest
  | c :: rest => splitKeep (c :: acc) rest

/-- The ordered encodings tried by `read_lines`. -/
inductive Enc where
  | utf8 | latin1 | cp1252
deriving DecidableEq

/-- Decode bytes under one encoding (`none` = `UnicodeDecodeError`). -/
def decodeEnc : Enc → List Nat → Option (List Char)
  | .utf8, bs => utf8Decode bs
  | .latin1, bs => some (latin1Decode bs)
  | .cp1252, bs => cp1252Decode bs

/-- Try the encodings in order; first full decode wins, returning the
`readlines()` result. -/
def tryEncodings (bs : List Nat) : List Enc → Option (List String)
  | [] => none
  | e :: es =>
      match decodeEnc e bs with
      | some cs => some (splitKeep [] (translateNewlines cs))
      | none => tryEncodings bs es

/-- `read_lines`: open and read the file under `utf-8`, `latin-1`, `cp1252`
in turn; a decode error tries the next encoding, exhaustion returns `None`.
An `OSError` on open/read is not caught and propagates (`.error ()`). -/
def read_lines (f : FsFile) : Except Unit (Option (List String)) :=
  match f.bytes with
  | none => .error ()
  | some bs => .ok (tryEncodings bs [Enc.utf8, Enc.latin1, Enc.cp1252])

/-! ## `difflib` (as used by `unified_diff(a, b, n)` with no junk predicate)

The program calls `difflib.unified_diff(lines_a, lines_b, fromfile, tofile,
n=context_lines)`, which builds a `SequenceMatcher(None, a, b)`. With a
`None` junk predicate the junk set is empty; the `autojunk` heuristic (for
`len(b) >= 200`) is modelled. Loops that can only act on junk elements are
omitted because the junk set is always empty here. -/

/-- The ascending list of positions of `x` in `b` (the `b2j` table entry
before the autojunk pass). -/
def bIndices (b : List String) (x : String) : List Nat :=
  (List.range b.length).filter (fun j => b[j]? == some x)

/-- The `b2j` entry after the autojunk pass: an element of a sequence of
length at least 200 occurring more than `len(b) // 100 + 1` times is
"popular" and is dropped from the table. -/
def b2j (b : List String) (x : String) : List Nat :=
  if b.length ≥ 200 ∧ (bIndices b x).length > b.length / 100 + 1 then []
  else bIndices b x

/-- Inner loop of `find_longest_match` for one position `i` of `a`: for each
`j` (ascending) with `blo ≤ j < bhi` where `b[j] == a[i]`, the run length
`k = j2len[j-1] + 1` is recorded in the new table, and a strictly longer run
updates the best match. -/
def flmInner (j2len : Nat → Nat) (i : Nat) :
    List Nat → (Nat → Nat) → Nat × Nat × Nat → ((Nat → Nat) × (Nat × Nat × Nat))
  | [], newtbl, best => (newtbl, best)
  | j :: js, newtbl, best =>
      let k := (if j = 0 then 0 else j2len (j - 1)) + 1
      let newtbl' := fun j' => if j' = j then k else newtbl j'
      let best' := if k > best.2.2 then (i + 1 - k, j + 1 - k, k) else best
      flmInner j2len i js newtbl' best'

/-- Outer loop of `find_longest_match` over `i` in `range(alo, ahi)`. -/
def flmOuter (a b : List String) (blo bhi : Nat) :
    List Nat → (Nat → Nat) → Nat × Nat × Nat → Nat × Nat × Nat
  | [], _, best => best
  | i :: is, j2len, best =>
      let js :=
        match a[i]? with
        | some ai => (b2j b ai).filter (fun j => decide (blo ≤ j) && decide (j < bhi))
        | none => []
      let r := flmInner j2len i js (fun _ => 0) best
      flmOuter a b blo bhi is r.1 r.2

/-- Are two optional elements both present and equal? (Guards the extension
loops against out-of-range indices.) -/
def optEq (x y : Option String) : Bool :=
  match x, y with
  | some u, some v => u == v
  | _, _ => false

/-- First extension loop of `find_longest_match`: grow the match leftwards
over equal (non-junk; the junk set is empty) elements. The fuel bounds the
number of steps; `besti` steps always suffice since `besti` decreases. -/
def extendLeft (a b : List String) (alo blo : Nat) :
    Nat → Nat × Nat × Nat → Nat × Nat × Nat
  | 0, best => best
  | fuel + 1, (besti, bestj, bestsize) =>
      if decide (alo < besti) && decide (blo < bestj) &&
          optEq a[besti - 1]? b[bestj - 1]? then
        extendLeft a b alo blo fuel (besti - 1, bestj - 1, bestsize + 1)
      else (besti, bestj, bestsize)

/-- Second extension loop: grow the match rightwards over equal elements.
`ahi` steps of fuel always suffice since `besti + bestsize` increases while
staying below `ahi`. -/
def extendRight (a b : List String) (ahi bhi : Nat) :
    Nat → Nat × Nat × Nat → Nat × Nat × Nat
  | 0, best => best
  | fuel + 1, (besti, bestj, bestsize) =>
      if decide (besti + bestsize < ahi) && decide (bestj + bestsize < bhi) &&
          optEq a[besti + bestsize]? b[bestj + bestsize]? then
        extendRight a b ahi bhi fuel (besti, bestj, bestsize + 1)
      else (besti, bestj, bestsize)

/-- `SequenceMatcher.find_longest_match(alo, ahi, blo, bhi)`: the longest
matching block, earliest in `a` then in `b` among ties, then extended at
both ends (the remaining two loops of the source only move junk elements
into the match and the junk set is empty). -/
def find_longest_match (a b : List String) (alo ahi blo bhi : Nat) : Nat × Nat × Nat :=
  let best := flmOuter a b blo bhi (List.range' alo (ahi - alo)) (fun _ => 0) (alo, blo, 0)
  let best' := extendLeft a b alo blo best.1 best
  extendRight a b ahi bhi ahi best'

/-- The recursive divide-and-conquer of `get_matching_blocks` (the source
uses an explicit LIFO queue and sorts afterwards; the set of blocks found is
the same). Fuel `(ahi - alo) + (bhi - blo) + 1` always suffices: a found
block is nonempty and within range, so both subproblems are strictly
smaller. -/
def mbRec (a b : List String) : Nat → Nat → Nat → Nat → Nat → List (Nat × Nat × Nat)
  | 0, _, _, _, _ => []
  | fuel + 1, alo, ahi, blo, bhi =>
      let m := find_longest_match a b alo ahi blo bhi
      if m.2.2 = 0 then []
      else
        (if decide (alo < m.1) && decide (blo < m.2.1) then mbRec a b fuel alo m.1 blo m.2.1 else [])
          ++ [m]
          ++ (if decide (m.1 + m.2.2 < ahi) && decide (m.2.1 + m.2.2 < bhi) then
                mbRec a b fuel (m.1 + m.2.2) ahi (m.2.1 + m.2.2) bhi
              else [])

/-- Lexicographic order on triples, as Python sorts 3-tuples. -/
def tripLe (x y : Nat × Nat × Nat) : Prop :=
  x.1 < y.1 ∨ (x.1 = y.1 ∧ (x.2.1 < y.2.1 ∨ (x.2.1 = y.2.1 ∧ x.2.2 ≤ y.2.2)))

instance : DecidableRel tripLe := fun x y => by unfold tripLe; exact inferInstance

/-- The merge pass of `get_matching_blocks`: adjacent blocks coalesce;
a pending block with zero size is dropped. -/
def mergeAdj : Nat → Nat → Nat → List (Nat × Nat × Nat) → List (Nat × Nat × Nat)
  | i1, j1, k1, [] => if k1 ≠ 0 then [(i1, j1, k1)] else []
  | i1, j1, k1, (i2, j2, k2) :: rest =>
      if i1 + k1 = i2 ∧ j1 + k1 = j2 then mergeAdj i1 j1 (k1 + k2) rest
      else (if k1 ≠ 0 then [(i1, j1, k1)] else []) ++ mergeAdj i2 j2 k2 rest

/-- `SequenceMatcher.get_matching_blocks`: all maximal matching blocks in
sorted order, adjacent ones merged, terminated by the sentinel
`(len(a), len(b), 0)`. -/
def get_matching_blocks (a b : List String) : List (Nat × Nat × Nat) :=
  let raw := mbRec a b (a.length + b.length + 1) 0 a.length 0 b.length
  mergeAdj 0 0 0 (List.insertionSort tripLe raw) ++ [(a.length, b.length, 0)]

/-- Tags of diff opcodes. -/
inductive DTag where
  | replace | delete | insert | equal
deriving DecidableEq

/-- One opcode `(tag, i1, i2, j1, j2)`. -/
structure Opcode where
  tag : DTag
  i1 : Nat
  i2 : Nat
  j1 : Nat
  j2 : Nat
deriving DecidableEq

/-- The loop of `get_opcodes` over the matching blocks. -/
def opcodesAux : Nat → Nat → List (Nat × Nat × Nat) → List Opcode
  | _, _, [] => []
  | i, j, (ai, bj, size) :: rest =>
      (if i < ai ∧ j < bj then [⟨.replace, i, ai, j, bj⟩]
       else if i < ai then [⟨.delete, i, ai, j, bj⟩]
       else if j < bj then [⟨.insert, i, ai, j, bj⟩]
       else [])
        ++ (if size ≠ 0 then [⟨.equal, ai, ai + size, bj, bj + size⟩] else [])
        ++ opcodesAux (ai + size) (bj + size) rest

/-- `SequenceMatcher.get_opcodes`. -/
def get_opcodes (a b : List String) : List Opcode :=
  opcodesAux 0 0 (get_matching_blocks a b)

/-- `get_grouped_opcodes`: clamp a leading `equal` opcode to the last `n`
context lines. -/
def fixHead (n : Nat) : List Opcode → List Opcode
  | [] => []
  | c :: rest =>
      if c.tag = .equal then
        ⟨.equal, max c.i1 (c.i2 - n), c.i2, max c.j1 (c.j2 - n), c.j2⟩ :: rest
      else c :: rest

/-- `get_grouped_opcodes`: clamp a trailing `equal` opcode to the first `n`
context lines. -/
def fixLast (n : Nat) : List Opcode → List Opcode
  | [] => []
  | [c] =>
      [if c.tag = .equal then
        ⟨.equal, c.i1, min c.i2 (c.i1 + n), c.j1, min c.j2 (c.j1 + n)⟩
       else c]
  | c :: rest => c :: fixLast n rest

/-- The grouping loop of `get_grouped_opcodes`: a large `equal` gap
(more than `2n` lines) ends the current group and starts the next; a final
group that is a single `equal` opcode is not emitted. -/
def groupLoop (n : Nat) : List Opcode → List Opcode → List (List Opcode)
  | group, [] =>
      (match group with
       | [] => []
       | [c] => if c.tag = .equal then [] else [[c]]
       | g => [g])
  | group, c :: rest =>
      if c.tag = .equal ∧ c.i2 - c.i1 > n + n then
        (group ++ [⟨.equal, c.i1, min c.i2 (c.i1 + n), c.j1, min c.j2 (c.j1 + n)⟩])
          :: groupLoop n [⟨.equal, max c.i1 (c.i2 - n), c.i2, max c.j1 (c.j2 - n), c.j2⟩] rest
      else groupLoop n (group ++ [c]) rest

/-- `SequenceMatcher.get_grouped_opcodes(n)`: opcode groups, each group one
hunk with up to `n` lines of context. Empty opcode lists are replaced by a
single degenerate `equal`. -/
def get_grouped_opcodes (a b : List String) (n : Nat) : List (List Opcode) :=
  let codes := get_opcodes a b
  let codes := if codes.isEmpty then [⟨.equal, 0, 1, 0, 1⟩] else codes
  groupLoop n [] (fixLast n (fixHead n codes))

/-- `a[i:j]` slicing. -/
def sliceL (l : List String) (i j : Nat) : List String := (l.drop i).take (j - i)

/-- `_format_range_unified`. -/
def format_range_unified (start stop : Nat) : String :=
  let beginning := start + 1
  let length := stop - start
  if length = 1 then toString beginning
  else toString (if length = 0 then beginning - 1 else beginning) ++ "," ++ toString length

/-- Body lines contributed by one opcode: context lines keep a leading
space, removed lines a `-`, added lines a `+` (a `replace` yields the
removals then the additions). -/
def renderOpcode (a b : List String) (c : Opcode) : List String :=
  match c.tag with
  | .equal => (sliceL a c.i1 c.i2).map (fun x => " " ++ x)
  | .delete => (sliceL a c.i1 c.i2).map (fun x => "-" ++ x)
  | .insert => (sliceL b c.j1 c.j2).map (fun x => "+" ++ x)
  | .replace =>
      (sliceL a c.i1 c.i2).map (fun x => "-" ++ x) ++ (sliceL b c.j1 c.j2).map (fun x => "+" ++ x)

/-- One hunk: the `@@` header then the body lines of its opcodes. -/
def renderGroup (a b : List String) (g : List Opcode) : List String :=
  let first := g.headD ⟨.equal, 0, 0, 0, 0⟩
  let last := g.getLastD ⟨.equal, 0, 0, 0, 0⟩
  ("@@ -" ++ format_range_unified first.i1 last.i2 ++ " +" ++
      format_range_unified first.j1 last.j2 ++ " @@" ++ "\n")
    :: g.flatMap (renderOpcode a b)

/-- `difflib.unified_diff(a, b, fromfile, tofile, n)` with the default
`lineterm="\n"`: the two file headers (emitted only when at least one hunk
exists) followed by the rendered hunks. -/
def unified_diff (a b : List String) (fromfile tofile : String) (n : Nat) : List String :=
  let groups := get_grouped_opcodes a b n
  if groups.isEmpty then []
  else ("--- " ++ fromfile ++ "\n") :: ("+++ " ++ tofile ++ "\n")
    :: groups.flatMap (renderGroup a b)

/-! ## The comparison engine -/

/-- The four status tags of `FileDiff.status`. -/
inductive Status where
  | added | deleted | modified | binary_modified
deriving DecidableEq

/-- The `details` dict: added/deleted entries carry one size, the common-file
entries carry both sizes. -/
inductive Details where
  | single (size : Nat)
  | pair (size_a size_b : Nat)
deriving DecidableEq

/-- The `FileDiff` record (`lines_added`, `lines_removed` and `diff_lines`
default to `0`, `0`, `[]` in the constructor and are only set in the
`show_content` branch). -/
structure FileDiff where
  rel_path : String
  status : Status
  details : Details
  lang : String
  lines_added : Nat
  lines_removed : Nat
  diff_lines : List String
deriving DecidableEq

/-- `fp.stat().st_size`: raises when `stat` fails. -/
def statSize (f : FsFile) : Except Unit Nat :=
  match f.size with
  | some n => .ok n
  | none => .error ()

/-- `fp.stat().st_size if fp.exists() else 0` of the added/deleted loops. -/
def sizeOrZero (f : FsFile) : Except Unit Nat :=
  if f.ex then statSize f else .ok 0

/-- One entry of the deleted loop. -/
def delEntry (t : FsNode FsFile) (rel : String) : Except Unit FileDiff := do
  let sz ← sizeOrZero (getFile t rel)
  .ok ⟨rel, .deleted, .single sz, get_lang rel, 0, 0, []⟩

/-- One entry of the added loop. -/
def addEntry (t : FsNode FsFile) (rel : String) : Except Unit FileDiff := do
  let sz ← sizeOrZero (getFile t rel)
  .ok ⟨rel, .added, .single sz, get_lang rel, 0, 0, []⟩

/-- `sum(1 for l in unified if l.startswith("+") and not l.startswith("+++"))`. -/
def countDiffPlus (unified : List String) : Nat :=
  unified.countP (fun l => pyStartsWith l "+" && !(pyStartsWith l "+++"))

/-- `sum(1 for l in unified if l.startswith("-") and not l.startswith("---"))`. -/
def countDiffMinus (unified : List String) : Nat :=
  unified.countP (fun l => pyStartsWith l "-" && !(pyStartsWith l "---"))

/-- The body of the common-files loop of `compare_directories` for one
relative path: equal digests are skipped; a binary file (by extension or
sniffing, on either side) yields a `binary_modified` entry; text files are
decoded and yield a `modified` entry, with diff statistics only when
`show_content` is set; decode exhaustion on either side falls back to
`binary_modified`. The `stat` calls are unguarded in the source and
propagate failures. -/
def processCommon (fa fb : FsFile) (rel : String) (cfg : Config) :
    Except Unit (Option FileDiff) :=
  if file_hash fa = file_hash fb then .ok none
  else if is_binary rel fa || is_binary rel fb then do
    let sa ← statSize fa
    let sb ← statSize fb
    .ok (some ⟨rel, .binary_modified, .pair sa sb, get_lang rel, 0, 0, []⟩)
  else do
    let la? ← read_lines fa
    let lb? ← read_lines fb
    match la?, lb? with
    | some la, some lb => do
        let sa ← statSize fa
        let sb ← statSize fb
        if cfg.show_content then
          let unified := unified_diff la lb ("original/" ++ rel) ("modified/" ++ rel)
            cfg.context_lines
          .ok (some ⟨rel, .modified, .pair sa sb, get_lang rel,
            countDiffPlus unified, countDiffMinus unified, unified⟩)
        else .ok (some ⟨rel, .modified, .pair sa sb, get_lang rel, 0, 0, []⟩)
    | _, _ => do
        let sa ← statSize fa
        let sb ← statSize fb
        .ok (some ⟨rel, .binary_modified, .pair sa sb, get_lang rel, 0, 0, []⟩)

/-- The deleted loop over the sorted only-in-original paths. -/
def buildDeleted (t : FsNode FsFile) : List String → Except Unit (List FileDiff)
  | [] => .ok []
  | r :: rs => do
      let e ← delEntry t r
      let es ← buildDeleted t rs
      .ok (e :: es)

/-- The added loop over the sorted only-in-modified paths. -/
def buildAdded (t : FsNode FsFile) : List String → Except Unit (List FileDiff)
  | [] => .ok []
  | r :: rs => do
      let e ← addEntry t r
      let es ← buildAdded t rs
      .ok (e :: es)

/-- The common-files loop over the sorted common paths; skipped paths
contribute no entry. -/
def buildCommon (ta tb : FsNode FsFile) (cfg : Config) :
    List String → Except Unit (List FileDiff)
  | [] => .ok []
  | r :: rs => do
      let e? ← processCommon (getFile ta r) (getFile tb r) r cfg
      let es ← buildCommon ta tb cfg rs
      .ok (match e? with
           | some e => e :: es
           | none => es)

/-- `sorted(...)` over a set of relative paths (the inputs are duplicate-free;
Python compares strings by code points, as `String.le` does). -/
def pySorted (l : List String) : List String :=
  List.insertionSort (fun a b : String => a ≤ b) l

/-- `files_a - files_b`. -/
def only_in_a (ta tb : FsNode FsFile) (cfg : Config) : List String :=
  (collect_files ta cfg).filter (fun r => !((collect_files tb cfg).contains r))

/-- `files_b - files_a`. -/
def only_in_b (ta tb : FsNode FsFile) (cfg : Config) : List String :=
  (collect_files tb cfg).filter (fun r => !((collect_files ta cfg).contains r))

/-- `files_a & files_b`. -/
def commonFiles (ta tb : FsNode FsFile) (cfg : Config) : List String :=
  (collect_files ta cfg).filter (fun r => (collect_files tb cfg).contains r)

/-- `compare_directories`: collect both trees with the same filters,
partition into deleted/added/common, emit the three entry groups in order,
and return them with the three totals. A raised per-file `OSError` that the
source does not catch propagates as `.error ()`. -/
def compare_directories (ta tb : FsNode FsFile) (cfg : Config) :
    Except Unit (List FileDiff × Nat × Nat × Nat) := do
  let dels ← buildDeleted ta (pySorted (only_in_a ta tb cfg))
  let adds ← buildAdded tb (pySorted (only_in_b ta tb cfg))
  let coms ← buildCommon ta tb cfg (pySorted (commonFiles ta tb cfg))
  .ok (dels ++ adds ++ coms,
    (collect_files ta cfg).length, (collect_files tb cfg).length,
    (commonFiles ta tb cfg).length)

/-- Count of entries with a given status (as the report renderers compute
`added`, `deleted`, `modified` and `bin_mod`). -/
def statusCount (es : List FileDiff) (s : Status) : Nat :=
  (es.filter (fun e => decide (e.status = s))).length

/-- The added lines of one opcode (the lines a hunk body tags with `+`). -/
def addedOf (b : List String) (c : Opcode) : List String :=
  match c.tag with
  | .insert => sliceL b c.j1 c.j2
  | .replace => sliceL b c.j1 c.j2
  | _ => []

/-- The removed lines of one opcode (the lines a hunk body tags with `-`). -/
def removedOf (a : List String) (c : Opcode) : List String :=
  match c.tag with
  | .delete => sliceL a c.i1 c.i2
  | .replace => sliceL a c.i1 c.i2
  | _ => []

/-- All body lines tagged `added` across all hunks of the diff of `a`
against `b` with `n` context lines. -/
def addedBodyLines (a b : List String) (n : Nat) : List String :=
  (get_grouped_opcodes a b n).flatMap (fun g => g.flatMap (addedOf b))

/-- All body lines tagged `removed` across all hunks. -/
def removedBodyLines (a b : List String) (n : Nat) : List String :=
  (get_grouped_opcodes a b n).flatMap (fun g => g.flatMap (removedOf a))

deriving instance DecidableEq for Except

/-! ## Concrete inputs used by witnesses and counterexamples -/

/-- A configuration with no filters, content diffing on, 3 context lines. -/
def cfgN : Config := ⟨[], [], none, true, 3⟩

/-- A one-file tree: `p` with content byte `120`. -/
def w4 : FsNode FsFile := .fileE "p" ⟨some [120], some 1, true⟩ .nilE

/-- A one-file tree: `p` unreadable (read and `stat` both fail). -/
def w9 : FsNode FsFile := .fileE "p" ⟨none, none, true⟩ .nilE

/-- Two one-file trees differing in the content of the known-binary-extension
file `p.png`. -/
def wa6 : FsNode FsFile := .fileE "p.png" ⟨some [1], some 1, true⟩ .nilE

/-- The modified side of the C6 witness. -/
def wb6 : FsNode FsFile := .fileE "p.png" ⟨some [2], some 1, true⟩ .nilE

/-- The single entry of the C6 witness run. -/
def r6 : FileDiff := ⟨"p.png", .binary_modified, .pair 1 1, "PNG", 0, 0, []⟩

/-- Original side of the C8 witness: `t.txt` containing `a\n`. -/
def wa8 : FsNode FsFile := .fileE "t.txt" ⟨some [97, 10], some 2, true⟩ .nilE

/-- Modified side of the C8 witness: `t.txt` containing `b\n`. -/
def wb8 : FsNode FsFile := .fileE "t.txt" ⟨some [98, 10], some 2, true⟩ .nilE

/-- A configuration with content diffing disabled. -/
def cfg8 : Config := ⟨[], [], none, false, 3⟩

/-- The single entry of the C8 witness run. -/
def r8 : FileDiff := ⟨"t.txt", .modified, .pair 2 2, "Text", 0, 0, []⟩

/-- The modified side of the C1 witness: same byte content as `w4` but
different size metadata. -/
def w1b : FsNode FsFile := .fileE "p" ⟨some [120], some 5, false⟩ .nilE

/-- Original side of the C5 witness: only `d.txt`. -/
def wa5 : FsNode FsFile := .fileE "d.txt" ⟨some [1], some 1, true⟩ .nilE

/-- Modified side of the C5 witness: only `n.txt`. -/
def wb5 : FsNode FsFile := .fileE "n.txt" ⟨some [2], some 1, true⟩ .nilE

/-- The entries of the C5 witness run. -/
def r5 : List FileDiff :=
  [⟨"d.txt", .deleted, .single 1, "Text", 0, 0, []⟩,
   ⟨"n.txt", .added, .single 1, "Text", 0, 0, []⟩]

/-- The C7 witness configuration: `node_modules` ignored, `.ts` allow-listed. -/
def cfg7 : Config := ⟨["node_modules"], [], some [".ts"], true, 3⟩

/-- Original side of the C7 witness: `node_modules/x.ts` and `y.ts`. -/
def wa7 : FsNode FsFile :=
  .dirE "node_modules" (.fileE "x.ts" ⟨some [1], some 1, true⟩ .nilE)
    (.fileE "y.ts" ⟨some [2], some 2, true⟩ .nilE)

/-- Modified side of the C7 witness: only `y.ts`. -/
def wb7 : FsNode FsFile := .fileE "y.ts" ⟨some [2], some 2, true⟩ .nilE

/-- Original side of the C3 failing input: the common file `x` is unreadable
and its `stat()` fails (e.g. a directory readable but not executable:
`os.walk` lists `x`, while `open` and `stat` raise `PermissionError`). -/
def wa3 : FsNode FsFile := .fileE "x" ⟨none, none, true⟩ .nilE

/-- Modified side of the C3 failing input: `x` is readable. -/
def wb3 : FsNode FsFile := .fileE "x" ⟨some [97], some 1, true⟩ .nilE

/-- Original side of the C2 counterexample: `p` containing `a\n`. -/
def wa2 : FsNode FsFile := .fileE "p" ⟨some [97, 10], some 2, true⟩ .nilE

/-- Modified side of the C2 counterexample: `p` containing `++b\n` — the
added line's content itself begins with `++`. -/
def wb2 : FsNode FsFile := .fileE "p" ⟨some [43, 43, 98, 10], some 4, true⟩ .nilE

/-- The entry of the C2 counterexample run: the rendered added line
`+++b\n` starts with `+++`, so the prefix count skips it and
`lines_added = 0`. -/
def r2 : FileDiff :=
  ⟨"p", .modified, .pair 2 4, "Unknown", 0, 1,
    ["--- original/p\n", "+++ modified/p\n", "@@ -1 +1 @@\n", "-a\n", "+++b\n"]⟩

/-! ## Infrastructure lemmas -/

@[simp] theorem exBind_ok {ε α β : Type} (x : α) (f : α → Except ε β) :
    (Except.ok x >>= f : Except ε β) = f x := rfl

@[simp] theorem exBind_error {ε α β : Type} (u : ε) (f : α → Except ε β) :
    (Except.error u >>= f : Except ε β) = Except.error u := rfl

theorem delEntry_ok {t : FsNode FsFile} {r : String} {e : FileDiff}
    (h : delEntry t r = .ok e) :
    e.rel_path = r ∧ e.status = .deleted := by
  unfold delEntry at h
  cases hz : sizeOrZero (getFile t r) with
  | error u => rw [hz] at h; simp at h
  | ok sz => rw [hz] at h; simp at h; subst h; exact ⟨rfl, rfl⟩

theorem addEntry_ok {t : FsNode FsFile} {r : String} {e : FileDiff}
    (h : addEntry t r = .ok e) :
    e.rel_path = r ∧ e.status = .added := by
  unfold addEntry at h
  cases hz : sizeOrZero (getFile t r) with
  | error u => rw [hz] at h; simp at h
  | ok sz => rw [hz] at h; simp at h; subst h; exact ⟨rfl, rfl⟩

theorem buildDeleted_ok {t : FsNode FsFile} :
    ∀ {rels : List String} {es : List FileDiff}, buildDeleted t rels = .ok es →
      es.map FileDiff.rel_path = rels ∧ ∀ e ∈ es, e.status = .deleted := by
  intro rels
  induction rels with
  | nil =>
      intro es h
      simp only [buildDeleted] at h
      cases h
      simp
  | cons r rs ih =>
      intro es h
      simp only [buildDeleted] at h
      cases h1 : delEntry t r with
      | error u => rw [h1] at h; simp at h
      | ok e =>
          rw [h1] at h
          cases h2 : buildDeleted t rs with
          | error u => rw [h2] at h; simp at h
          | ok es' =>
              rw [h2] at h
              simp only [exBind_ok, Except.ok.injEq] at h
              subst h
              obtain ⟨hm, hs⟩ := ih h2
              obtain ⟨hrel, hstat⟩ := delEntry_ok h1
              refine ⟨by simp [hm, hrel], ?_⟩
              intro e' he'
              rcases List.mem_cons.mp he' with h' | h'
              · subst h'; exact hstat
              · exact hs e' h'

theorem buildAdded_ok {t : FsNode FsFile} :
    ∀ {rels : List String} {es : List FileDiff}, buildAdded t rels = .ok es →
      es.map FileDiff.rel_path = rels ∧ ∀ e ∈ es, e.status = .added := by
  intro rels
  induction rels with
  | nil =>
      intro es h
      simp only [buildAdded] at h
      cases h
      simp
  | cons r rs ih =>
      intro es h
      simp only [buildAdded] at h
      cases h1 : addEntry t r with
      | error u => rw [h1] at h; simp at h
      | ok e =>
          rw [h1] at h
          cases h2 : buildAdded t rs with
          | error u => rw [h2] at h; simp at h
          | ok es' =>
              rw [h2] at h
              simp only [exBind_ok, Except.ok.injEq] at h
              subst h
              obtain ⟨hm, hs⟩ := ih h2
              obtain ⟨hrel, hstat⟩ := addEntry_ok h1
              refine ⟨by simp [hm, hrel], ?_⟩
              intro e' he'
              rcases List.mem_cons.mp he' with h' | h'
              · subst h'; exact hstat
              · exact hs e' h'

theorem processCommon_hashEq {fa fb : FsFile} {rel : String} {cfg : Config}
    (h : file_hash fa = file_hash fb) :
    processCommon fa fb rel cfg = .ok none := by
  unfold processCommon
  rw [if_pos h]

theorem processCommon_rel {fa fb : FsFile} {rel : String} {cfg : Config} {e : FileDiff}
    (h : processCommon fa fb rel cfg = .ok (some e)) : e.rel_path = rel := by
  unfold processCommon at h
  split at h
  · simp at h
  · split at h
    · cases h1 : statSize fa with
      | error u => rw [h1] at h; simp at h
      | ok sa =>
        rw [h1] at h
        cases h2 : statSize fb with
        | error u => rw [h2] at h; simp at h
        | ok sb =>
          rw [h2] at h
          simp only [exBind_ok, Except.ok.injEq, Option.some.injEq] at h
          subst h; rfl
    · cases hra : read_lines fa with
      | error u => rw [hra] at h; simp at h
      | ok laq =>
        rw [hra] at h
        simp only [exBind_ok] at h
        cases hrb : read_lines fb with
        | error u => rw [hrb] at h; simp at h
        | ok lbq =>
          rw [hrb] at h
          simp only [exBind_ok] at h
          split at h
          · cases h1 : statSize fa with
            | error u => rw [h1] at h; simp at h
            | ok sa =>
              rw [h1] at h
              cases h2 : statSize fb with
              | error u => rw [h2] at h; simp at h
              | ok sb =>
                rw [h2] at h
                simp only [exBind_ok] at h
                split at h
                · simp only [Except.ok.injEq, Option.some.injEq] at h
                  subst h; rfl
                · simp only [Except.ok.injEq, Option.some.injEq] at h
                  subst h; rfl
          · cases h1 : statSize fa with
            | error u => rw [h1] at h; simp at h
            | ok sa =>
              rw [h1] at h
              cases h2 : statSize fb with
              | error u => rw [h2] at h; simp at h
              | ok sb =>
                rw [h2] at h
                simp only [exBind_ok, Except.ok.injEq, Option.some.injEq] at h
                subst h; rfl

theorem processCommon_binary {fa fb : FsFile} {rel : String} {cfg : Config}
    {o : Option FileDiff}
    (hhash : file_hash fa ≠ file_hash fb)
    (hbin : (is_binary rel fa || is_binary rel fb) = true)
    (h : processCommon fa fb rel cfg = .ok o) :
    ∃ sa sb, statSize fa = .ok sa ∧ statSize fb = .ok sb ∧
      o = some ⟨rel, .binary_modified, .pair sa sb, get_lang rel, 0, 0, []⟩ := by
  unfold processCommon at h
  rw [if_neg hhash] at h
  simp only [hbin, if_true] at h
  cases h1 : statSize fa with
  | error u => rw [h1] at h; simp at h
  | ok sa =>
    rw [h1] at h
    cases h2 : statSize fb with
    | error u => rw [h2] at h; simp at h
    | ok sb =>
      rw [h2] at h
      simp only [exBind_ok, Except.ok.injEq] at h
      exact ⟨sa, sb, rfl, rfl, h.symm⟩

theorem processCommon_text {fa fb : FsFile} {rel : String} {cfg : Config}
    {o : Option FileDiff} {la lb : List String}
    (hhash : file_hash fa ≠ file_hash fb)
    (hba : is_binary rel fa = false) (hbb : is_binary rel fb = false)
    (hla : read_lines fa = .ok (some la)) (hlb : read_lines fb = .ok (some lb))
    (h : processCommon fa fb rel cfg = .ok o) :
    ∃ sa sb, statSize fa = .ok sa ∧ statSize fb = .ok sb ∧
      o = some (if cfg.show_content then
          ⟨rel, .modified, .pair sa sb, get_lang rel,
            countDiffPlus (unified_diff la lb ("original/" ++ rel) ("modified/" ++ rel)
              cfg.context_lines),
            countDiffMinus (unified_diff la lb ("original/" ++ rel) ("modified/" ++ rel)
              cfg.context_lines),
            unified_diff la lb ("original/" ++ rel) ("modified/" ++ rel) cfg.context_lines⟩
        else ⟨rel, .modified, .pair sa sb, get_lang rel, 0, 0, []⟩) := by
  unfold processCommon at h
  rw [if_neg hhash] at h
  simp only [hba, hbb, Bool.or_false, Bool.false_eq_true, if_false] at h
  rw [hla] at h
  simp only [exBind_ok] at h
  rw [hlb] at h
  simp only [exBind_ok] at h
  cases h1 : statSize fa with
  | error u => rw [h1] at h; simp at h
  | ok sa =>
    rw [h1] at h
    cases h2 : statSize fb with
    | error u => rw [h2] at h; simp at h
    | ok sb =>
      rw [h2] at h
      simp only [exBind_ok] at h
      refine ⟨sa, sb, rfl, rfl, ?_⟩
      by_cases hsc : cfg.show_content
      · rw [if_pos hsc]
        rw [if_pos hsc] at h
        simp only [Except.ok.injEq] at h
        exact h.symm
      · rw [if_neg hsc]
        rw [if_neg hsc] at h
        simp only [Except.ok.injEq] at h
        exact h.symm

theorem buildCommon_mem {ta tb : FsNode FsFile} {cfg : Config} :
    ∀ {rels : List String} {es : List FileDiff}, buildCommon ta tb cfg rels = .ok es →
      ∀ e ∈ es, ∃ r ∈ rels, processCommon (getFile ta r) (getFile tb r) r cfg = .ok (some e) := by
  intro rels
  induction rels with
  | nil =>
      intro es h
      simp only [buildCommon] at h
      cases h
      intro e he
      simp at he
  | cons r rs ih =>
      intro es h
      simp only [buildCommon] at h
      cases hp : processCommon (getFile ta r) (getFile tb r) r cfg with
      | error u => rw [hp] at h; simp at h
      | ok o =>
        rw [hp] at h
        cases hr : buildCommon ta tb cfg rs with
        | error u => rw [hr] at h; simp at h
        | ok es' =>
          rw [hr] at h
          simp only [exBind_ok, Except.ok.injEq] at h
          subst h
          intro e he
          cases o with
          | some e0 =>
              rcases List.mem_cons.mp he with h' | h'
              · subst h'; exact ⟨r, List.mem_cons_self r rs, hp⟩
              · obtain ⟨r', hr', hp'⟩ := ih hr e h'
                exact ⟨r', List.mem_cons_of_mem r hr', hp'⟩
          | none =>
              obtain ⟨r', hr', hp'⟩ := ih hr e he
              exact ⟨r', List.mem_cons_of_mem r hr', hp'⟩

theorem buildCommon_proc {ta tb : FsNode FsFile} {cfg : Config} :
    ∀ {rels : List String} {es : List FileDiff}, buildCommon ta tb cfg rels = .ok es →
      ∀ r ∈ rels, ∃ o, processCommon (getFile ta r) (getFile tb r) r cfg = .ok o ∧
        ∀ e, o = some e → e ∈ es := by
  intro rels
  induction rels with
  | nil =>
      intro es h r hr
      simp at hr
  | cons r0 rs ih =>
      intro es h r hr
      simp only [buildCommon] at h
      cases hp : processCommon (getFile ta r0) (getFile tb r0) r0 cfg with
      | error u => rw [hp] at h; simp at h
      | ok o =>
        rw [hp] at h
        cases hrest : buildCommon ta tb cfg rs with
        | error u => rw [hrest] at h; simp at h
        | ok es' =>
          rw [hrest] at h
          simp only [exBind_ok, Except.ok.injEq] at h
          subst h
          rcases List.mem_cons.mp hr with h' | h'
          · subst h'
            refine ⟨o, hp, ?_⟩
            intro e he
            subst he
            simp
          · obtain ⟨o', hp', hin⟩ := ih hrest r h'
            refine ⟨o', hp', ?_⟩
            intro e he
            have := hin e he
            cases o with
            | some e0 => exact List.mem_cons_of_mem e0 this
            | none => exact this

theorem buildCommon_paths {ta tb : FsNode FsFile} {cfg : Config} :
    ∀ {rels : List String} {es : List FileDiff}, buildCommon ta tb cfg rels = .ok es →
      List.Sublist (es.map FileDiff.rel_path) rels := by
  intro rels
  induction rels with
  | nil =>
      intro es h
      simp only [buildCommon] at h
      cases h
      simp
  | cons r rs ih =>
      intro es h
      simp only [buildCommon] at h
      cases hp : processCommon (getFile ta r) (getFile tb r) r cfg with
      | error u => rw [hp] at h; simp at h
      | ok o =>
        rw [hp] at h
        cases hr : buildCommon ta tb cfg rs with
        | error u => rw [hr] at h; simp at h
        | ok es' =>
          rw [hr] at h
          simp only [exBind_ok, Except.ok.injEq] at h
          subst h
          cases o with
          | some e0 =>
              have hrel := processCommon_rel hp
              simp only [List.map_cons, hrel]
              exact List.Sublist.cons₂ r (ih hr)
          | none => exact List.Sublist.cons r (ih hr)

theorem compare_ok_inv {ta tb : FsNode FsFile} {cfg : Config}
    {res : List FileDiff × Nat × Nat × Nat}
    (h : compare_directories ta tb cfg = .ok res) :
    ∃ dels adds coms,
      buildDeleted ta (pySorted (only_in_a ta tb cfg)) = .ok dels ∧
      buildAdded tb (pySorted (only_in_b ta tb cfg)) = .ok adds ∧
      buildCommon ta tb cfg (pySorted (commonFiles ta tb cfg)) = .ok coms ∧
      res = (dels ++ adds ++ coms, (collect_files ta cfg).length,
        (collect_files tb cfg).length, (commonFiles ta tb cfg).length) := by
  unfold compare_directories at h
  cases h1 : buildDeleted ta (pySorted (only_in_a ta tb cfg)) with
  | error u => rw [h1] at h; simp at h
  | ok dels =>
    rw [h1] at h
    cases h2 : buildAdded tb (pySorted (only_in_b ta tb cfg)) with
    | error u => rw [h2] at h; simp at h
    | ok adds =>
      rw [h2] at h
      cases h3 : buildCommon ta tb cfg (pySorted (commonFiles ta tb cfg)) with
      | error u => rw [h3] at h; simp at h
      | ok coms =>
        rw [h3] at h
        simp only [exBind_ok, Except.ok.injEq] at h
        exact ⟨dels, adds, coms, rfl, rfl, rfl, h.symm⟩

theorem contains_iff {α : Type} [BEq α] [LawfulBEq α] {l : List α} {a : α} :
    l.contains a = true ↔ a ∈ l := by
  induction l with
  | nil => simp
  | cons x xs ih => simp [List.contains, List.elem_cons] at ih ⊢

theorem mem_only_in_a {ta tb : FsNode FsFile} {cfg : Config} {r : String} :
    r ∈ only_in_a ta tb cfg ↔ r ∈ collect_files ta cfg ∧ r ∉ collect_files tb cfg := by
  simp only [only_in_a, List.mem_filter, Bool.not_eq_true', Bool.not_eq_true]
  constructor
  · rintro ⟨h1, h2⟩
    refine ⟨h1, fun hc => ?_⟩
    rw [contains_iff.mpr hc] at h2
    cases h2
  · rintro ⟨h1, h2⟩
    refine ⟨h1, ?_⟩
    cases hc : (collect_files tb cfg).contains r with
    | false => rfl
    | true => exact absurd (contains_iff.mp hc) h2

theorem mem_only_in_b {ta tb : FsNode FsFile} {cfg : Config} {r : String} :
    r ∈ only_in_b ta tb cfg ↔ r ∈ collect_files tb cfg ∧ r ∉ collect_files ta cfg := by
  simp only [only_in_b, List.mem_filter, Bool.not_eq_true', Bool.not_eq_true]
  constructor
  · rintro ⟨h1, h2⟩
    refine ⟨h1, fun hc => ?_⟩
    rw [contains_iff.mpr hc] at h2
    cases h2
  · rintro ⟨h1, h2⟩
    refine ⟨h1, ?_⟩
    cases hc : (collect_files ta cfg).contains r with
    | false => rfl
    | true => exact absurd (contains_iff.mp hc) h2

theorem mem_commonFiles {ta tb : FsNode FsFile} {cfg : Config} {r : String} :
    r ∈ commonFiles ta tb cfg ↔ r ∈ collect_files ta cfg ∧ r ∈ collect_files tb cfg := by
  simp only [commonFiles, List.mem_filter]
  exact and_congr_right (fun _ => contains_iff)

theorem collect_files_nodup (t : FsNode FsFile) (cfg : Config) :
    (collect_files t cfg).Nodup := List.nodup_dedup _

theorem pySorted_perm (l : List String) : List.Perm (pySorted l) l :=
  List.perm_insertionSort _ l

theorem mem_pySorted {l : List String} {r : String} : r ∈ pySorted l ↔ r ∈ l :=
  (pySorted_perm l).mem_iff

theorem pySorted_nodup {l : List String} (h : l.Nodup) : (pySorted l).Nodup :=
  ((pySorted_perm l).nodup_iff).mpr h

theorem only_in_a_nodup (ta tb : FsNode FsFile) (cfg : Config) :
    (only_in_a ta tb cfg).Nodup := (collect_files_nodup ta cfg).filter _

theorem only_in_b_nodup (ta tb : FsNode FsFile) (cfg : Config) :
    (only_in_b ta tb cfg).Nodup := (collect_files_nodup tb cfg).filter _

theorem commonFiles_nodup (ta tb : FsNode FsFile) (cfg : Config) :
    (commonFiles ta tb cfg).Nodup := (collect_files_nodup ta cfg).filter _

theorem filter_rel_nil {es : List FileDiff} {rel : String}
    (h : rel ∉ es.map FileDiff.rel_path) :
    es.filter (fun e => e.rel_path = rel) = [] := by
  induction es with
  | nil => rfl
  | cons e es ih =>
      simp only [List.map_cons, List.mem_cons, not_or] at h
      obtain ⟨h1, h2⟩ := h
      simp only [List.filter_cons]
      rw [if_neg]
      · exact ih h2
      · simp
        intro hc
        exact h1 (hc.symm ▸ rfl)

theorem filter_rel_length_one {es : List FileDiff} {rel : String}
    (hnd : (es.map FileDiff.rel_path).Nodup)
    (hm : rel ∈ es.map FileDiff.rel_path) :
    (es.filter (fun e => e.rel_path = rel)).length = 1 := by
  induction es with
  | nil => simp at hm
  | cons e es ih =>
      simp only [List.map_cons, List.nodup_cons] at hnd
      obtain ⟨hne, hnd'⟩ := hnd
      rcases List.mem_cons.mp hm with h' | h'
      · simp only [List.filter_cons]
        rw [if_pos (by simp [h'.symm])]
        have : es.filter (fun e => e.rel_path = rel) = [] := by
          apply filter_rel_nil
          rw [← h'] at hne
          exact hne
        simp [this]
      · simp only [List.filter_cons]
        rw [if_neg]
        · exact ih hnd' h'
        · simp
          intro hc
          rw [hc] at hne
          exact hne h'

theorem entry_path_mem {ta tb : FsNode FsFile} {cfg : Config}
    {res : List FileDiff × Nat × Nat × Nat}
    (h : compare_directories ta tb cfg = .ok res) :
    ∀ e ∈ res.1, e.rel_path ∈ collect_files ta cfg ∨ e.rel_path ∈ collect_files tb cfg := by
  obtain ⟨dels, adds, coms, h1, h2, h3, hres⟩ := compare_ok_inv h
  subst hres
  intro e he
  simp only [List.mem_append] at he
  rcases he with (he | he) | he
  · left
    have hmap := (buildDeleted_ok h1).1
    have : e.rel_path ∈ pySorted (only_in_a ta tb cfg) := by
      rw [← hmap]; exact List.mem_map_of_mem _ he
    exact (mem_only_in_a.mp (mem_pySorted.mp this)).1
  · right
    have hmap := (buildAdded_ok h2).1
    have : e.rel_path ∈ pySorted (only_in_b ta tb cfg) := by
      rw [← hmap]; exact List.mem_map_of_mem _ he
    exact (mem_only_in_b.mp (mem_pySorted.mp this)).1
  · left
    obtain ⟨r, hr, hp⟩ := buildCommon_mem h3 e he
    have := processCommon_rel hp
    subst this
    exact (mem_commonFiles.mp (mem_pySorted.mp hr)).1

theorem no_entry_of_hashEq {ta tb : FsNode FsFile} {cfg : Config}
    {res : List FileDiff × Nat × Nat × Nat} {rel : String}
    (h : compare_directories ta tb cfg = .ok res)
    (hma : rel ∈ collect_files ta cfg) (hmb : rel ∈ collect_files tb cfg)
    (hh : file_hash (getFile ta rel) = file_hash (getFile tb rel)) :
    ∀ e ∈ res.1, e.rel_path ≠ rel := by
  obtain ⟨dels, adds, coms, h1, h2, h3, hres⟩ := compare_ok_inv h
  subst hres
  intro e he heq
  simp only [List.mem_append] at he
  rcases he with (he | he) | he
  · have hmap := (buildDeleted_ok h1).1
    have : rel ∈ pySorted (only_in_a ta tb cfg) := by
      rw [← hmap, ← heq]; exact List.mem_map_of_mem _ he
    exact (mem_only_in_a.mp (mem_pySorted.mp this)).2 hmb
  · have hmap := (buildAdded_ok h2).1
    have : rel ∈ pySorted (only_in_b ta tb cfg) := by
      rw [← hmap, ← heq]; exact List.mem_map_of_mem _ he
    exact (mem_only_in_b.mp (mem_pySorted.mp this)).2 hma
  · obtain ⟨r, hr, hp⟩ := buildCommon_mem h3 e he
    have hrel := processCommon_rel hp
    have : r = rel := by rw [← hrel, heq]
    subst this
    rw [processCommon_hashEq hh] at hp
    simp at hp

/-! ## Claim theorems -/

/-- Claim C4: for every path present in both collected sets, if the content
digests of the two file versions are equal, no `FileDiffEntry` is emitted for
that path, regardless of extension, binary sniffing, or any other
classification rule. -/
theorem C4_hash_eq_no_entry (ta tb : FsNode FsFile) (cfg : Config)
    (res : List FileDiff × Nat × Nat × Nat) (rel : String)
    (hma : rel ∈ collect_files ta cfg) (hmb : rel ∈ collect_files tb cfg)
    (hh : file_hash (getFile ta rel) = file_hash (getFile tb rel))
    (hok : compare_directories ta tb cfg = .ok res) :
    ∀ e ∈ res.1, e.rel_path ≠ rel :=
  no_entry_of_hashEq hok hma hmb hh

/-- Witness for C4 at a concrete input: two equal one-file trees. -/
theorem C4_hash_eq_no_entry_witness :
    ("p" ∈ collect_files w4 cfgN) ∧
    compare_directories w4 w4 cfgN = .ok ([], 1, 1, 1) ∧
    (∀ e ∈ (([], 1, 1, 1) : List FileDiff × Nat × Nat × Nat).1, e.rel_path ≠ "p") :=
  ⟨by decide, by decide,
    C4_hash_eq_no_entry w4 w4 cfgN ([], 1, 1, 1) "p" (by decide) (by decide) rfl (by decide)⟩

/-- Claim C9: for every common path where reading both file versions fails,
`file_hash` returns `None` for both sides, the `None == None` comparison
holds, and `compare_directories` emits no entry at all for that path — the
pair is treated exactly like two identical files. -/
theorem C9_both_unreadable_no_entry (ta tb : FsNode FsFile) (cfg : Config)
    (res : List FileDiff × Nat × Nat × Nat) (rel : String)
    (hma : rel ∈ collect_files ta cfg) (hmb : rel ∈ collect_files tb cfg)
    (hra : (getFile ta rel).bytes = none) (hrb : (getFile tb rel).bytes = none)
    (hok : compare_directories ta tb cfg = .ok res) :
    file_hash (getFile ta rel) = none ∧ file_hash (getFile tb rel) = none ∧
    ∀ e ∈ res.1, e.rel_path ≠ rel := by
  refine ⟨hra, hrb, ?_⟩
  exact no_entry_of_hashEq hok hma hmb (by unfold file_hash; rw [hra, hrb])

/-- Witness for C9 at a concrete input: the file `p` is unreadable on both
sides; the run succeeds with no entries. -/
theorem C9_both_unreadable_no_entry_witness :
    ("p" ∈ collect_files w9 cfgN) ∧
    compare_directories w9 w9 cfgN = .ok ([], 1, 1, 1) ∧
    (file_hash (getFile w9 "p") = none ∧ file_hash (getFile w9 "p") = none ∧
      ∀ e ∈ (([], 1, 1, 1) : List FileDiff × Nat × Nat × Nat).1, e.rel_path ≠ "p") :=
  ⟨by decide, by decide,
    C9_both_unreadable_no_entry w9 w9 cfgN ([], 1, 1, 1) "p"
      (by decide) (by decide) (by decide) (by decide) (by decide)⟩

theorem common_entry_exists {ta tb : FsNode FsFile} {cfg : Config}
    {res : List FileDiff × Nat × Nat × Nat} {rel : String}
    (hok : compare_directories ta tb cfg = .ok res)
    (hm : rel ∈ commonFiles ta tb cfg) :
    ∃ o, processCommon (getFile ta rel) (getFile tb rel) rel cfg = .ok o ∧
      ∀ e, o = some e → e ∈ res.1 := by
  obtain ⟨dels, adds, coms, h1, h2, h3, hres⟩ := compare_ok_inv hok
  subst hres
  obtain ⟨o, hp, hin⟩ := buildCommon_proc h3 rel (mem_pySorted.mpr hm)
  refine ⟨o, hp, ?_⟩
  intro e he
  simp only [List.mem_append]
  exact Or.inr (hin e he)

theorem entry_for_common {ta tb : FsNode FsFile} {cfg : Config}
    {res : List FileDiff × Nat × Nat × Nat} {rel : String} {e : FileDiff}
    (hok : compare_directories ta tb cfg = .ok res)
    (hm : rel ∈ commonFiles ta tb cfg)
    (he : e ∈ res.1) (heq : e.rel_path = rel) :
    processCommon (getFile ta rel) (getFile tb rel) rel cfg = .ok (some e) := by
  obtain ⟨dels, adds, coms, h1, h2, h3, hres⟩ := compare_ok_inv hok
  subst hres
  obtain ⟨hfa, hfb⟩ := mem_commonFiles.mp hm
  simp only [List.mem_append] at he
  rcases he with (he | he) | he
  · exfalso
    have hmap := (buildDeleted_ok h1).1
    have : rel ∈ pySorted (only_in_a ta tb cfg) := by
      rw [← hmap, ← heq]; exact List.mem_map_of_mem _ he
    exact (mem_only_in_a.mp (mem_pySorted.mp this)).2 hfb
  · exfalso
    have hmap := (buildAdded_ok h2).1
    have : rel ∈ pySorted (only_in_b ta tb cfg) := by
      rw [← hmap, ← heq]; exact List.mem_map_of_mem _ he
    exact (mem_only_in_b.mp (mem_pySorted.mp this)).2 hfa
  · obtain ⟨r, hr, hp⟩ := buildCommon_mem h3 e he
    have hrel := processCommon_rel hp
    have hrrel : r = rel := hrel.symm.trans heq
    subst hrrel
    exact hp

/-- Claim C6: for every common path whose digests differ and whose lowercased
extension is in the known-binary extension set, the emitted entry always has
status `BinaryModified`, never `Modified`. -/
theorem C6_binary_extension (ta tb : FsNode FsFile) (cfg : Config)
    (res : List FileDiff × Nat × Nat × Nat) (rel : String)
    (hm : rel ∈ commonFiles ta tb cfg)
    (hhash : file_hash (getFile ta rel) ≠ file_hash (getFile tb rel))
    (hext : lowerStr (path_suffix rel) ∈ BINARY_EXTENSIONS)
    (hok : compare_directories ta tb cfg = .ok res) :
    (∃ e ∈ res.1, e.rel_path = rel ∧ e.status = .binary_modified) ∧
    ∀ e ∈ res.1, e.rel_path = rel → e.status = .binary_modified := by
  have hbinA : is_binary rel (getFile ta rel) = true := by
    unfold is_binary
    rw [if_pos (contains_iff.mpr hext)]
  have hbin : (is_binary rel (getFile ta rel) || is_binary rel (getFile tb rel)) = true := by
    rw [hbinA]; rfl
  constructor
  · obtain ⟨o, hp, hin⟩ := common_entry_exists hok hm
    obtain ⟨sa, sb, _, _, ho⟩ := processCommon_binary hhash hbin hp
    subst ho
    exact ⟨_, hin _ rfl, rfl, rfl⟩
  · intro e he heq
    have hp := entry_for_common hok hm he heq
    obtain ⟨sa, sb, _, _, ho⟩ := processCommon_binary hhash hbin hp
    have : e = ⟨rel, .binary_modified, .pair sa sb, get_lang rel, 0, 0, []⟩ := by
      injection ho
    rw [this]

/-- Witness for C6 at a concrete input: `p.png` differs between the trees. -/
theorem C6_binary_extension_witness :
    ("p.png" ∈ commonFiles wa6 wb6 cfgN) ∧
    (file_hash (getFile wa6 "p.png") ≠ file_hash (getFile wb6 "p.png")) ∧
    compare_directories wa6 wb6 cfgN = .ok ([r6], 1, 1, 1) ∧
    ((∃ e ∈ (([r6], 1, 1, 1) : List FileDiff × Nat × Nat × Nat).1,
        e.rel_path = "p.png" ∧ e.status = .binary_modified) ∧
      ∀ e ∈ (([r6], 1, 1, 1) : List FileDiff × Nat × Nat × Nat).1,
        e.rel_path = "p.png" → e.status = .binary_modified) :=
  ⟨by decide, by decide, by decide,
    C6_binary_extension wa6 wb6 cfgN ([r6], 1, 1, 1) "p.png"
      (by decide) (by decide) (by decide) (by decide)⟩

/-- Claim C8: for every common path classified as text-modified, a `Modified`
entry is emitted whether or not content diffing is enabled; with
`show_content` disabled that entry has `lines_added = 0`,
`lines_removed = 0` and no diff hunks. -/
theorem C8_modified_regardless (ta tb : FsNode FsFile) (cfg : Config)
    (res : List FileDiff × Nat × Nat × Nat) (rel : String) (la lb : List String)
    (hm : rel ∈ commonFiles ta tb cfg)
    (hhash : file_hash (getFile ta rel) ≠ file_hash (getFile tb rel))
    (hba : is_binary rel (getFile ta rel) = false)
    (hbb : is_binary rel (getFile tb rel) = false)
    (hla : read_lines (getFile ta rel) = .ok (some la))
    (hlb : read_lines (getFile tb rel) = .ok (some lb))
    (hok : compare_directories ta tb cfg = .ok res) :
    ∃ e ∈ res.1, e.rel_path = rel ∧ e.status = .modified ∧
      (cfg.show_content = false →
        e.lines_added = 0 ∧ e.lines_removed = 0 ∧ e.diff_lines = []) := by
  obtain ⟨o, hp, hin⟩ := common_entry_exists hok hm
  obtain ⟨sa, sb, _, _, ho⟩ := processCommon_text hhash hba hbb hla hlb hp
  subst ho
  by_cases hsc : cfg.show_content
  · rw [if_pos hsc] at hin
    refine ⟨_, hin _ rfl, rfl, rfl, ?_⟩
    intro hfalse
    rw [hsc] at hfalse
    cases hfalse
  · rw [if_neg hsc] at hin
    exact ⟨_, hin _ rfl, rfl, rfl, fun _ => ⟨rfl, rfl, rfl⟩⟩

/-- Witness for C8 at a concrete input: a text file differs and
`show_content` is off; the `Modified` entry carries zero counts and no
hunks. -/
theorem C8_modified_regardless_witness :
    ("t.txt" ∈ commonFiles wa8 wb8 cfg8) ∧
    (read_lines (getFile wa8 "t.txt") = .ok (some ["a\n"])) ∧
    compare_directories wa8 wb8 cfg8 = .ok ([r8], 1, 1, 1) ∧
    (∃ e ∈ (([r8], 1, 1, 1) : List FileDiff × Nat × Nat × Nat).1,
      e.rel_path = "t.txt" ∧ e.status = .modified ∧
      (cfg8.show_content = false →
        e.lines_added = 0 ∧ e.lines_removed = 0 ∧ e.diff_lines = [])) :=
  ⟨by decide, by decide, by decide,
    C8_modified_regardless wa8 wb8 cfg8 ([r8], 1, 1, 1) "t.txt" ["a\n"] ["b\n"]
      (by decide) (by decide) (by decide) (by decide) (by decide) (by decide) (by decide)⟩

theorem tryEncodings_total (bs : List Nat) :
    ∃ ls, tryEncodings bs [Enc.utf8, Enc.latin1, Enc.cp1252] = some ls := by
  unfold tryEncodings
  cases h : decodeEnc Enc.utf8 bs with
  | some cs => exact ⟨_, rfl⟩
  | none =>
      unfold tryEncodings
      exact ⟨_, rfl⟩

/-- Claim C10: for every readable file, `read_lines` never returns `None`,
because the `latin-1` fallback decodes every byte sequence; hence the branch
of `compare_directories` that classifies a common path `BinaryModified`
because no encoding decodes it (`lines_a is None or lines_b is None`) is
unreachable whenever both files are readable. -/
theorem C10_read_lines_total (fa fb : FsFile) (bsa bsb : List Nat)
    (ha : fa.bytes = some bsa) (hb : fb.bytes = some bsb) :
    (∃ la, read_lines fa = .ok (some la)) ∧ (∃ lb, read_lines fb = .ok (some lb)) ∧
    ¬(read_lines fa = .ok none ∨ read_lines fb = .ok none) := by
  have hra : read_lines fa = .ok (tryEncodings bsa [Enc.utf8, Enc.latin1, Enc.cp1252]) := by
    unfold read_lines
    rw [ha]
  have hrb : read_lines fb = .ok (tryEncodings bsb [Enc.utf8, Enc.latin1, Enc.cp1252]) := by
    unfold read_lines
    rw [hb]
  obtain ⟨lsa, hlsa⟩ := tryEncodings_total bsa
  obtain ⟨lsb, hlsb⟩ := tryEncodings_total bsb
  rw [hlsa] at hra
  rw [hlsb] at hrb
  refine ⟨⟨lsa, hra⟩, ⟨lsb, hrb⟩, ?_⟩
  rintro (hn | hn)
  · rw [hra] at hn; simp at hn
  · rw [hrb] at hn; simp at hn

/-- Witness for C10 at a concrete input: `0xFF` is invalid UTF-8, so the
file decodes through the `latin-1` fallback. -/
theorem C10_read_lines_total_witness :
    ((⟨some [255], some 1, true⟩ : FsFile).bytes = some [255]) ∧
    ((∃ la, read_lines ⟨some [255], some 1, true⟩ = .ok (some la)) ∧
      (∃ lb, read_lines ⟨some [255], some 1, true⟩ = .ok (some lb)) ∧
      ¬(read_lines ⟨some [255], some 1, true⟩ = .ok none ∨
        read_lines ⟨some [255], some 1, true⟩ = .ok none)) :=
  ⟨rfl, C10_read_lines_total ⟨some [255], some 1, true⟩ ⟨some [255], some 1, true⟩
    [255] [255] rfl rfl⟩

theorem collectComps_mapFiles {α β : Type} (f : α → β) (cfg : Config) :
    ∀ t : FsNode α, collectComps cfg (FsNode.mapFiles f t) = collectComps cfg t := by
  intro t
  induction t with
  | nilE => rfl
  | fileE n a rest ih => simp [FsNode.mapFiles, collectComps, ih]
  | dirE n ch rest ihc ihr => simp [FsNode.mapFiles, collectComps, ihc, ihr]

theorem collect_files_congr {ta tb : FsNode FsFile} (cfg : Config)
    (h : FsNode.mapFiles FsFile.bytes ta = FsNode.mapFiles FsFile.bytes tb) :
    collect_files ta cfg = collect_files tb cfg := by
  unfold collect_files
  rw [← collectComps_mapFiles FsFile.bytes cfg ta, h, collectComps_mapFiles]

theorem walkAll_mapFiles {α β : Type} (f : α → β) :
    ∀ t : FsNode α,
      FsNode.walkAll (FsNode.mapFiles f t) =
        (FsNode.walkAll t).map (fun pr => (pr.1, f pr.2)) := by
  intro t
  induction t with
  | nilE => rfl
  | fileE n a rest ih => simp [FsNode.mapFiles, FsNode.walkAll, ih]
  | dirE n ch rest ihc ihr =>
      simp [FsNode.mapFiles, FsNode.walkAll, ihc, ihr, List.map_map]

theorem find?_map_pairs {α β : Type} (g : α → β) (p : β → Bool) :
    ∀ l : List α, (l.map g).find? p = (l.find? (fun x => p (g x))).map g := by
  intro l
  induction l with
  | nil => rfl
  | cons x xs ih =>
      simp only [List.map_cons, List.find?]
      cases h : p (g x) with
      | true => rfl
      | false => exact ih

theorem getFile_bytes_congr {ta tb : FsNode FsFile} {rel : String}
    (h : FsNode.mapFiles FsFile.bytes ta = FsNode.mapFiles FsFile.bytes tb) :
    (getFile ta rel).bytes = (getFile tb rel).bytes := by
  have key : ∀ t : FsNode FsFile,
      Option.map (fun pr => (pr.1, pr.2.bytes))
          ((FsNode.walkAll t).find? (fun pr => joinPath pr.1 == rel)) =
        (FsNode.walkAll (FsNode.mapFiles FsFile.bytes t)).find?
          (fun pr => joinPath pr.1 == rel) := by
    intro t
    rw [walkAll_mapFiles FsFile.bytes t, find?_map_pairs]
  have heq : Option.map (fun pr => (pr.1, pr.2.bytes))
        ((FsNode.walkAll ta).find? (fun pr => joinPath pr.1 == rel)) =
      Option.map (fun pr => (pr.1, pr.2.bytes))
        ((FsNode.walkAll tb).find? (fun pr => joinPath pr.1 == rel)) := by
    rw [key ta, key tb, h]
  unfold getFile
  cases h1 : (FsNode.walkAll ta).find? (fun pr => joinPath pr.1 == rel) with
  | none =>
      rw [h1] at heq
      cases h2 : (FsNode.walkAll tb).find? (fun pr => joinPath pr.1 == rel) with
      | none => rfl
      | some pr2 => rw [h2] at heq; simp at heq
  | some pr1 =>
      rw [h1] at heq
      cases h2 : (FsNode.walkAll tb).find? (fun pr => joinPath pr.1 == rel) with
      | none => rw [h2] at heq; simp at heq
      | some pr2 =>
          rw [h2] at heq
          simp only [Option.map_some', Option.some.injEq, Prod.mk.injEq] at heq
          exact heq.2

theorem buildCommon_all_skip {ta tb : FsNode FsFile} {cfg : Config} :
    ∀ rels : List String,
      (∀ r ∈ rels, file_hash (getFile ta r) = file_hash (getFile tb r)) →
      buildCommon ta tb cfg rels = .ok [] := by
  intro rels
  induction rels with
  | nil => intro _; rfl
  | cons r rs ih =>
      intro hall
      simp only [buildCommon]
      rw [processCommon_hashEq (hall r (List.mem_cons_self r rs))]
      simp only [exBind_ok]
      rw [ih (fun r' hr' => hall r' (List.mem_cons_of_mem r hr'))]
      rfl

/-- Claim C1: for every pair of identical directory trees (same relative
paths, same byte content per file) compared under the same filter
configuration, `compare_directories` returns an empty entry list — no
`FileDiffEntry` of any status — so the added, deleted, modified and
binary-modified counts are all zero. -/
theorem C1_identical_trees (ta tb : FsNode FsFile) (cfg : Config)
    (h : FsNode.mapFiles FsFile.bytes ta = FsNode.mapFiles FsFile.bytes tb) :
    ∃ res, compare_directories ta tb cfg = .ok res ∧ res.1 = [] ∧
      statusCount res.1 .added = 0 ∧ statusCount res.1 .deleted = 0 ∧
      statusCount res.1 .modified = 0 ∧ statusCount res.1 .binary_modified = 0 := by
  have hcoll : collect_files ta cfg = collect_files tb cfg := collect_files_congr cfg h
  have honlyA : only_in_a ta tb cfg = [] := by
    unfold only_in_a
    rw [List.filter_eq_nil_iff]
    intro r hr
    have hr' : r ∈ collect_files tb cfg := by rw [← hcoll]; exact hr
    intro hcon
    rw [contains_iff.mpr hr'] at hcon
    simp at hcon
  have honlyB : only_in_b ta tb cfg = [] := by
    unfold only_in_b
    rw [List.filter_eq_nil_iff]
    intro r hr
    have hr' : r ∈ collect_files ta cfg := by rw [hcoll]; exact hr
    intro hcon
    rw [contains_iff.mpr hr'] at hcon
    simp at hcon
  have hcommon : commonFiles ta tb cfg = collect_files ta cfg := by
    unfold commonFiles
    rw [List.filter_eq_self]
    intro r hr
    have hr' : r ∈ collect_files tb cfg := by rw [← hcoll]; exact hr
    exact contains_iff.mpr hr'
  have hd : buildDeleted ta (pySorted (only_in_a ta tb cfg)) = .ok [] := by
    rw [honlyA]; rfl
  have hadd : buildAdded tb (pySorted (only_in_b ta tb cfg)) = .ok [] := by
    rw [honlyB]; rfl
  have hc : buildCommon ta tb cfg (pySorted (commonFiles ta tb cfg)) = .ok [] :=
    buildCommon_all_skip _ (fun r _ => by
      unfold file_hash
      rw [getFile_bytes_congr h])
  refine ⟨([], (collect_files ta cfg).length, (collect_files ta cfg).length,
    (collect_files ta cfg).length), ?_, rfl, rfl, rfl, rfl, rfl⟩
  unfold compare_directories
  rw [hd]
  simp only [exBind_ok]
  rw [hadd]
  simp only [exBind_ok]
  rw [hc]
  simp only [exBind_ok]
  rw [hcommon, ← hcoll]
  rfl

/-- Witness for C1 at a concrete input: two one-file trees with identical
bytes. -/
theorem C1_identical_trees_witness :
    (FsNode.mapFiles FsFile.bytes w4 = FsNode.mapFiles FsFile.bytes w1b) ∧
    (∃ res, compare_directories w4 w1b cfgN = .ok res ∧ res.1 = [] ∧
      statusCount res.1 .added = 0 ∧ statusCount res.1 .deleted = 0 ∧
      statusCount res.1 .modified = 0 ∧ statusCount res.1 .binary_modified = 0) :=
  ⟨by decide, C1_identical_trees w4 w1b cfgN (by decide)⟩

/-- Claim C5: every path only in the original tree yields exactly one entry,
with status `Deleted`; symmetrically every path only in the modified tree
yields exactly one `Added` entry; and no relative path occurs in more than
one `FileDiffEntry` of the whole result. -/
theorem C5_partition_entries (ta tb : FsNode FsFile) (cfg : Config)
    (res : List FileDiff × Nat × Nat × Nat)
    (hok : compare_directories ta tb cfg = .ok res) :
    (∀ rel, rel ∈ collect_files ta cfg → rel ∉ collect_files tb cfg →
      (res.1.filter (fun e => e.rel_path = rel)).length = 1 ∧
      ∀ e ∈ res.1, e.rel_path = rel → e.status = .deleted) ∧
    (∀ rel, rel ∈ collect_files tb cfg → rel ∉ collect_files ta cfg →
      (res.1.filter (fun e => e.rel_path = rel)).length = 1 ∧
      ∀ e ∈ res.1, e.rel_path = rel → e.status = .added) ∧
    (res.1.map FileDiff.rel_path).Nodup := by
  obtain ⟨dels, adds, coms, h1, h2, h3, hres⟩ := compare_ok_inv hok
  subst hres
  dsimp only
  have mapD := (buildDeleted_ok h1).1
  have statD := (buildDeleted_ok h1).2
  have mapA := (buildAdded_ok h2).1
  have statA := (buildAdded_ok h2).2
  have subC := buildCommon_paths h3
  have memD : ∀ x, x ∈ dels.map FileDiff.rel_path ↔
      (x ∈ collect_files ta cfg ∧ x ∉ collect_files tb cfg) := by
    intro x
    rw [mapD, mem_pySorted]
    exact mem_only_in_a
  have memA : ∀ x, x ∈ adds.map FileDiff.rel_path ↔
      (x ∈ collect_files tb cfg ∧ x ∉ collect_files ta cfg) := by
    intro x
    rw [mapA, mem_pySorted]
    exact mem_only_in_b
  have memC : ∀ x, x ∈ coms.map FileDiff.rel_path →
      (x ∈ collect_files ta cfg ∧ x ∈ collect_files tb cfg) := by
    intro x hx
    exact mem_commonFiles.mp (mem_pySorted.mp (subC.subset hx))
  have hndD : (dels.map FileDiff.rel_path).Nodup := by
    rw [mapD]; exact pySorted_nodup (only_in_a_nodup ta tb cfg)
  have hndA : (adds.map FileDiff.rel_path).Nodup := by
    rw [mapA]; exact pySorted_nodup (only_in_b_nodup ta tb cfg)
  have hndC : (coms.map FileDiff.rel_path).Nodup :=
    (pySorted_nodup (commonFiles_nodup ta tb cfg)).sublist subC
  refine ⟨?_, ?_, ?_⟩
  · intro rel hma hnb
    constructor
    · rw [List.filter_append, List.filter_append, List.length_append, List.length_append]
      have hfd : (dels.filter (fun e => e.rel_path = rel)).length = 1 :=
        filter_rel_length_one hndD ((memD rel).mpr ⟨hma, hnb⟩)
      have hfa : adds.filter (fun e => e.rel_path = rel) = [] :=
        filter_rel_nil (fun hc => hnb ((memA rel).mp hc).1)
      have hfc : coms.filter (fun e => e.rel_path = rel) = [] :=
        filter_rel_nil (fun hc => hnb (memC rel hc).2)
      rw [hfd, hfa, hfc]
      rfl
    · intro e he heq
      simp only [List.mem_append] at he
      rcases he with (he | he) | he
      · exact statD e he
      · exact absurd ((memA rel).mp (heq ▸ List.mem_map_of_mem _ he)).1 hnb
      · exact absurd (memC rel (heq ▸ List.mem_map_of_mem _ he)).2 hnb
  · intro rel hmb hna
    constructor
    · rw [List.filter_append, List.filter_append, List.length_append, List.length_append]
      have hfd : dels.filter (fun e => e.rel_path = rel) = [] :=
        filter_rel_nil (fun hc => hna ((memD rel).mp hc).1)
      have hfa : (adds.filter (fun e => e.rel_path = rel)).length = 1 :=
        filter_rel_length_one hndA ((memA rel).mpr ⟨hmb, hna⟩)
      have hfc : coms.filter (fun e => e.rel_path = rel) = [] :=
        filter_rel_nil (fun hc => hna (memC rel hc).1)
      rw [hfd, hfa, hfc]
      rfl
    · intro e he heq
      simp only [List.mem_append] at he
      rcases he with (he | he) | he
      · exact absurd ((memD rel).mp (heq ▸ List.mem_map_of_mem _ he)).1 hna
      · exact statA e he
      · exact absurd (memC rel (heq ▸ List.mem_map_of_mem _ he)).1 hna
  · rw [List.map_append, List.map_append]
    refine List.Nodup.append (List.Nodup.append hndD hndA ?_) hndC ?_
    · intro x hxd hxa
      exact ((memA x).mp hxa).2 ((memD x).mp hxd).1
    · intro x hx hxc
      rcases List.mem_append.mp hx with hxd | hxa
      · exact ((memD x).mp hxd).2 (memC x hxc).2
      · exact ((memA x).mp hxa).2 (memC x hxc).1

/-- Witness for C5 at a concrete input: one deleted-only and one added-only
file. -/
theorem C5_partition_entries_witness :
    compare_directories wa5 wb5 cfgN = .ok (r5, 1, 1, 0) ∧
    ((∀ rel, rel ∈ collect_files wa5 cfgN → rel ∉ collect_files wb5 cfgN →
      ((r5, 1, 1, 0).1.filter (fun e => e.rel_path = rel)).length = 1 ∧
      ∀ e ∈ (r5, 1, 1, 0).1, e.rel_path = rel → e.status = .deleted) ∧
    (∀ rel, rel ∈ collect_files wb5 cfgN → rel ∉ collect_files wa5 cfgN →
      ((r5, 1, 1, 0).1.filter (fun e => e.rel_path = rel)).length = 1 ∧
      ∀ e ∈ (r5, 1, 1, 0).1, e.rel_path = rel → e.status = .added) ∧
    ((r5, 1, 1, 0).1.map FileDiff.rel_path).Nodup) :=
  ⟨by decide, C5_partition_entries wa5 wb5 cfgN (r5, 1, 1, 0) (by decide)⟩

/-- A name contains no path separator (true of every real file or directory
name). -/
def noSlash (s : String) : Bool := !(s.data.contains '/')

theorem string_eq_of_data {s t : String} (h : s.data = t.data) : s = t := by
  cases s; cases t
  exact congrArg String.mk h

theorem splitSlashInj : ∀ (as bs u v : List Char),
    '/' ∉ as → '/' ∉ bs → as ++ '/' :: u = bs ++ '/' :: v → as = bs ∧ u = v := by
  intro as
  induction as with
  | nil =>
      intro bs u v _ hbs h
      cases bs with
      | nil => simpa using h
      | cons b bs' =>
          simp only [List.nil_append, List.cons_append, List.cons.injEq] at h
          exact absurd (h.1 ▸ List.mem_cons_self b bs') hbs
  | cons a as' ih =>
      intro bs u v has hbs h
      cases bs with
      | nil =>
          simp only [List.cons_append, List.nil_append, List.cons.injEq] at h
          exact absurd (h.1.symm ▸ List.mem_cons_self a as') has
      | cons b bs' =>
          simp only [List.cons_append, List.cons.injEq] at h
          obtain ⟨hab, hrest⟩ := h
          have has' : '/' ∉ as' := fun hc => has (List.mem_cons_of_mem a hc)
          have hbs' : '/' ∉ bs' := fun hc => hbs (List.mem_cons_of_mem b hc)
          obtain ⟨h1, h2⟩ := ih bs' u v has' hbs' hrest
          exact ⟨by rw [hab, h1], h2⟩

theorem noSlash_char {s : String} (h : noSlash s = true) : '/' ∉ s.data := by
  intro hc
  unfold noSlash at h
  rw [contains_iff.mpr hc] at h
  simp at h

theorem joinPath_inj : ∀ (ps qs : List String), ps ≠ [] → qs ≠ [] →
    (∀ c ∈ ps, noSlash c = true) → (∀ c ∈ qs, noSlash c = true) →
    joinPath ps = joinPath qs → ps = qs := by
  intro ps
  induction ps with
  | nil => intro qs h; exact absurd rfl h
  | cons c ps' ih =>
      intro qs _ hqs hps hqsl h
      cases qs with
      | nil => exact absurd rfl hqs
      | cons d qs' =>
          cases ps' with
          | nil =>
              cases qs' with
              | nil =>
                  simp only [joinPath] at h
                  rw [h]
              | cons d2 qrest =>
                  exfalso
                  simp only [joinPath] at h
                  have hdata : c.data = d.data ++ '/' :: (joinPath (d2 :: qrest)).data := by
                    rw [h, String.data_append, String.data_append]
                    simp
                  have : '/' ∈ c.data := by
                    rw [hdata]
                    exact List.mem_append_right _ (List.mem_cons_self _ _)
                  exact noSlash_char (hps c (List.mem_cons_self c [])) this
          | cons c2 prest =>
              cases qs' with
              | nil =>
                  exfalso
                  simp only [joinPath] at h
                  have hdata : d.data = c.data ++ '/' :: (joinPath (c2 :: prest)).data := by
                    rw [← h, String.data_append, String.data_append]
                    simp
                  have : '/' ∈ d.data := by
                    rw [hdata]
                    exact List.mem_append_right _ (List.mem_cons_self _ _)
                  exact noSlash_char (hqsl d (List.mem_cons_self d [])) this
              | cons d2 qrest =>
                  simp only [joinPath] at h
                  have hdata : c.data ++ '/' :: (joinPath (c2 :: prest)).data =
                      d.data ++ '/' :: (joinPath (d2 :: qrest)).data := by
                    have := congrArg String.data h
                    rw [String.data_append, String.data_append,
                      String.data_append, String.data_append] at this
                    simpa using this
                  obtain ⟨h1, h2⟩ := splitSlashInj c.data d.data _ _
                    (noSlash_char (hps c (List.mem_cons_self c _)))
                    (noSlash_char (hqsl d (List.mem_cons_self d _))) hdata
                  have hcd : c = d := string_eq_of_data h1
                  have hJ : joinPath (c2 :: prest) = joinPath (d2 :: qrest) :=
                    string_eq_of_data h2
                  have htail : (c2 :: prest) = (d2 :: qrest) :=
                    ih (d2 :: qrest) (by simp) (by simp)
                      (fun x hx => hps x (List.mem_cons_of_mem c hx))
                      (fun x hx => hqsl x (List.mem_cons_of_mem d hx)) hJ
                  rw [hcd, htail]

theorem collectComps_shape {α : Type} (cfg : Config) :
    ∀ t : FsNode α, ∀ p ∈ collectComps cfg t,
      p ≠ [] ∧ ∀ c ∈ p.dropLast, cfg.ignore_dirs.contains c = false := by
  intro t
  induction t with
  | nilE => intro p hp; simp [collectComps] at hp
  | fileE n a rest ih =>
      intro p hp
      simp only [collectComps, List.mem_append] at hp
      rcases hp with hp | hp
      · by_cases hk : keepFile cfg n
        · rw [if_pos hk] at hp
          simp only [List.mem_singleton] at hp
          subst hp
          exact ⟨by simp, by simp [List.dropLast]⟩
        · rw [if_neg hk] at hp; simp at hp
      · exact ih p hp
  | dirE n ch rest ihc ihr =>
      intro p hp
      simp only [collectComps, List.mem_append] at hp
      rcases hp with hp | hp
      · by_cases hg : cfg.ignore_dirs.contains n
        · rw [if_pos hg] at hp; simp at hp
        · rw [if_neg hg] at hp
          simp only [List.mem_map] at hp
          obtain ⟨q, hq, hpq⟩ := hp
          subst hpq
          obtain ⟨hqne, hqdrop⟩ := ihc q hq
          refine ⟨by simp, ?_⟩
          intro c hc
          cases q with
          | nil => exact absurd rfl hqne
          | cons q0 qrest =>
              rw [List.dropLast_cons₂] at hc
              rcases List.mem_cons.mp hc with hc | hc
              · subst hc
                cases hcc : cfg.ignore_dirs.contains c with
                | false => rfl
                | true => exact absurd hcc hg
              · exact hqdrop c hc
      · exact ihr p hp

theorem collectComps_noSlash {α : Type} (cfg : Config) :
    ∀ t : FsNode α, FsNode.namesOk t = true → ∀ p ∈ collectComps cfg t,
      ∀ c ∈ p, noSlash c = true := by
  intro t
  induction t with
  | nilE => intro _ p hp; simp [collectComps] at hp
  | fileE n a rest ih =>
      intro hok p hp
      simp only [FsNode.namesOk, Bool.and_eq_true] at hok
      simp only [collectComps, List.mem_append] at hp
      rcases hp with hp | hp
      · by_cases hk : keepFile cfg n
        · rw [if_pos hk] at hp
          simp only [List.mem_singleton] at hp
          subst hp
          intro c hc
          simp only [List.mem_singleton] at hc
          subst hc
          exact hok.1
        · rw [if_neg hk] at hp; simp at hp
      · exact ih hok.2 p hp
  | dirE n ch rest ihc ihr =>
      intro hok p hp
      simp only [FsNode.namesOk, Bool.and_eq_true] at hok
      simp only [collectComps, List.mem_append] at hp
      rcases hp with hp | hp
      · by_cases hg : cfg.ignore_dirs.contains n
        · rw [if_pos hg] at hp; simp at hp
        · rw [if_neg hg] at hp
          simp only [List.mem_map] at hp
          obtain ⟨q, hq, hpq⟩ := hp
          subst hpq
          intro c hc
          rcases List.mem_cons.mp hc with hc | hc
          · subst hc; exact hok.1.1
          · exact ihc hok.1.2 q hq c hc
      · exact ihr hok.2 p hp

theorem mem_collect_files {t : FsNode FsFile} {cfg : Config} {r : String} :
    r ∈ collect_files t cfg ↔ ∃ p ∈ collectComps cfg t, r = joinPath p := by
  unfold collect_files
  rw [List.mem_dedup, List.mem_map]
  constructor
  · rintro ⟨p, hp, hr⟩; exact ⟨p, hp, hr.symm⟩
  · rintro ⟨p, hp, hr⟩; exact ⟨p, hp, hr.symm⟩

theorem not_collected_under_ignored {t : FsNode FsFile} {cfg : Config}
    {comps : List String} {fname d : String}
    (hd : d ∈ comps) (hig : d ∈ cfg.ignore_dirs)
    (hslash : ∀ c ∈ comps ++ [fname], noSlash c = true)
    (ht : FsNode.namesOk t = true) :
    joinPath (comps ++ [fname]) ∉ collect_files t cfg := by
  intro hmem
  obtain ⟨p, hp, heq⟩ := mem_collect_files.mp hmem
  obtain ⟨hpne, hpdrop⟩ := collectComps_shape cfg t p hp
  have hpslash := collectComps_noSlash cfg t ht p hp
  have hpe : comps ++ [fname] = p :=
    joinPath_inj (comps ++ [fname]) p (by simp) hpne hslash hpslash heq
  subst hpe
  have : cfg.ignore_dirs.contains d = false := by
    apply hpdrop
    rw [List.dropLast_concat]
    exact hd
  rw [contains_iff.mpr hig] at this
  cases this

/-- Claim C7: a file lying, at any depth, under a directory whose name is in
`ignore_dirs` is never in the collected set of either tree, and consequently
no `FileDiffEntry` for that path appears in the comparison result — even if
its extension is in the `extensions` allow-list (note that nothing below
constrains the extension). The hypotheses that names are slash-free hold of
every real filesystem. -/
theorem C7_ignored_dir_pruned (ta tb : FsNode FsFile) (cfg : Config)
    (comps : List String) (fname d : String)
    (hd : d ∈ comps) (hig : d ∈ cfg.ignore_dirs)
    (hslash : ∀ c ∈ comps ++ [fname], noSlash c = true)
    (hta : FsNode.namesOk ta = true) (htb : FsNode.namesOk tb = true) :
    joinPath (comps ++ [fname]) ∉ collect_files ta cfg ∧
    joinPath (comps ++ [fname]) ∉ collect_files tb cfg ∧
    ∀ res, compare_directories ta tb cfg = .ok res →
      ∀ e ∈ res.1, e.rel_path ≠ joinPath (comps ++ [fname]) := by
  have hna : joinPath (comps ++ [fname]) ∉ collect_files ta cfg :=
    not_collected_under_ignored hd hig hslash hta
  have hnb : joinPath (comps ++ [fname]) ∉ collect_files tb cfg :=
    not_collected_under_ignored hd hig hslash htb
  refine ⟨hna, hnb, ?_⟩
  intro res hok e he heq
  rcases entry_path_mem hok e he with hm | hm
  · exact hna (heq ▸ hm)
  · exact hnb (heq ▸ hm)

/-- Witness for C7 at a concrete input: `node_modules/x.ts` has an
allow-listed extension yet is pruned. -/
theorem C7_ignored_dir_pruned_witness :
    ("node_modules" ∈ ["node_modules"]) ∧
    ("node_modules" ∈ cfg7.ignore_dirs) ∧
    (∀ c ∈ ["node_modules"] ++ ["x.ts"], noSlash c = true) ∧
    (FsNode.namesOk wa7 = true) ∧ (FsNode.namesOk wb7 = true) ∧
    (joinPath (["node_modules"] ++ ["x.ts"]) ∉ collect_files wa7 cfg7 ∧
      joinPath (["node_modules"] ++ ["x.ts"]) ∉ collect_files wb7 cfg7 ∧
      ∀ res, compare_directories wa7 wb7 cfg7 = .ok res →
        ∀ e ∈ res.1, e.rel_path ≠ joinPath (["node_modules"] ++ ["x.ts"])) :=
  ⟨by decide, by decide, by decide, by decide, by decide,
    C7_ignored_dir_pruned wa7 wb7 cfg7 ["node_modules"] "x.ts" "node_modules"
      (by decide) (by decide) (by decide) (by decide) (by decide)⟩

/-- Claim C3 is contradicted by the code: on a common path whose original
side suffers a per-file I/O error, `file_hash` yields `None` (degrading, as
claimed), `is_binary` fail-safes to true (degrading, as claimed), but then
the unguarded `fp_a.stat().st_size` on line 322 raises, so
`compare_directories` does not complete and returns no result. This theorem
evaluates the engine at that failing input. -/
theorem C3_per_file_error_raises :
    compare_directories wa3 wb3 cfgN = .error () := by decide

theorem psw_space_plus (y : String) : pyStartsWith (" " ++ y) "+" = false := by
  unfold pyStartsWith
  rw [String.data_append]
  rfl

theorem psw_minus_plus (y : String) : pyStartsWith ("-" ++ y) "+" = false := by
  unfold pyStartsWith
  rw [String.data_append]
  rfl

theorem psw_plus_plus (y : String) : pyStartsWith ("+" ++ y) "+" = true := by
  unfold pyStartsWith
  rw [String.data_append]
  rfl

theorem psw_plus_ppp (y : String) : pyStartsWith ("+" ++ y) "+++" = pyStartsWith y "++" := by
  unfold pyStartsWith
  rw [String.data_append]
  rfl

theorem psw_space_minus (y : String) : pyStartsWith (" " ++ y) "-" = false := by
  unfold pyStartsWith
  rw [String.data_append]
  rfl

theorem psw_plus_minus (y : String) : pyStartsWith ("+" ++ y) "-" = false := by
  unfold pyStartsWith
  rw [String.data_append]
  rfl

theorem psw_minus_minus (y : String) : pyStartsWith ("-" ++ y) "-" = true := by
  unfold pyStartsWith
  rw [String.data_append]
  rfl

theorem psw_minus_mmm (y : String) : pyStartsWith ("-" ++ y) "---" = pyStartsWith y "--" := by
  unfold pyStartsWith
  rw [String.data_append]
  rfl

theorem psw_fromhdr_plus (f g : String) : pyStartsWith ("--- " ++ f ++ g) "+" = false := by
  unfold pyStartsWith
  simp only [String.data_append, List.append_assoc]
  rfl

theorem psw_tohdr_plus (f g : String) : pyStartsWith ("+++ " ++ f ++ g) "+" = true := by
  unfold pyStartsWith
  simp only [String.data_append, List.append_assoc]
  rfl

theorem psw_tohdr_ppp (f g : String) : pyStartsWith ("+++ " ++ f ++ g) "+++" = true := by
  unfold pyStartsWith
  simp only [String.data_append, List.append_assoc]
  rfl

theorem psw_fromhdr_minus (f g : String) : pyStartsWith ("--- " ++ f ++ g) "-" = true := by
  unfold pyStartsWith
  simp only [String.data_append, List.append_assoc]
  rfl

theorem psw_fromhdr_mmm (f g : String) : pyStartsWith ("--- " ++ f ++ g) "---" = true := by
  unfold pyStartsWith
  simp only [String.data_append, List.append_assoc]
  rfl

theorem psw_tohdr_minus (f g : String) : pyStartsWith ("+++ " ++ f ++ g) "-" = false := by
  unfold pyStartsWith
  simp only [String.data_append, List.append_assoc]
  rfl

theorem psw_hunkhdr_plus (r1 r2 : String) :
    pyStartsWith ("@@ -" ++ r1 ++ " +" ++ r2 ++ " @@" ++ "\n") "+" = false := by
  unfold pyStartsWith
  simp only [String.data_append, List.append_assoc]
  rfl

theorem psw_hunkhdr_minus (r1 r2 : String) :
    pyStartsWith ("@@ -" ++ r1 ++ " +" ++ r2 ++ " @@" ++ "\n") "-" = false := by
  unfold pyStartsWith
  simp only [String.data_append, List.append_assoc]
  rfl

theorem countP_ext {α : Type} (p q : α → Bool) :
    ∀ l : List α, (∀ x ∈ l, p x = q x) → List.countP p l = List.countP q l := by
  intro l
  induction l with
  | nil => intro _; rfl
  | cons x xs ih =>
      intro h
      rw [List.countP_cons, List.countP_cons, h x (List.mem_cons_self x xs),
        ih (fun y hy => h y (List.mem_cons_of_mem x hy))]

theorem countP_flatMap_eq {α : Type} (p q : String → Bool) (f g : α → List String)
    (h : ∀ x, List.countP p (f x) = List.countP q (g x)) :
    ∀ l : List α, List.countP p (l.flatMap f) = List.countP q (l.flatMap g) := by
  intro l
  induction l with
  | nil => rfl
  | cons x xs ih =>
      simp only [List.flatMap_cons, List.countP_append, h x, ih]

theorem countPlus_renderOpcode (a b : List String) (c : Opcode) :
    List.countP (fun l => pyStartsWith l "+" && !(pyStartsWith l "+++")) (renderOpcode a b c) =
      List.countP (fun l => !(pyStartsWith l "++")) (addedOf b c) := by
  unfold renderOpcode addedOf
  cases c.tag with
  | equal =>
      rw [List.countP_map, List.countP_eq_zero.mpr]
      · rfl
      · intro x _
        simp [Function.comp, psw_space_plus]
  | delete =>
      rw [List.countP_map, List.countP_eq_zero.mpr]
      · rfl
      · intro x _
        simp [Function.comp, psw_minus_plus]
  | insert =>
      rw [List.countP_map]
      apply countP_ext
      intro x _
      simp [Function.comp, psw_plus_plus, psw_plus_ppp]
  | replace =>
      rw [List.countP_append, List.countP_map, List.countP_map]
      have h0 : List.countP
          ((fun l => pyStartsWith l "+" && !(pyStartsWith l "+++")) ∘ fun x => "-" ++ x)
          (sliceL a c.i1 c.i2) = 0 :=
        List.countP_eq_zero.mpr (fun x _ => by simp [Function.comp, psw_minus_plus])
      rw [h0, Nat.zero_add]
      apply countP_ext
      intro x _
      simp [Function.comp, psw_plus_plus, psw_plus_ppp]

theorem countMinus_renderOpcode (a b : List String) (c : Opcode) :
    List.countP (fun l => pyStartsWith l "-" && !(pyStartsWith l "---")) (renderOpcode a b c) =
      List.countP (fun l => !(pyStartsWith l "--")) (removedOf a c) := by
  unfold renderOpcode removedOf
  cases c.tag with
  | equal =>
      rw [List.countP_map, List.countP_eq_zero.mpr]
      · rfl
      · intro x _
        simp [Function.comp, psw_space_minus]
  | insert =>
      rw [List.countP_map, List.countP_eq_zero.mpr]
      · rfl
      · intro x _
        simp [Function.comp, psw_plus_minus]
  | delete =>
      rw [List.countP_map]
      apply countP_ext
      intro x _
      simp [Function.comp, psw_minus_minus, psw_minus_mmm]
  | replace =>
      rw [List.countP_append, List.countP_map, List.countP_map]
      have h0 : List.countP
          ((fun l => pyStartsWith l "-" && !(pyStartsWith l "---")) ∘ fun x => "+" ++ x)
          (sliceL b c.j1 c.j2) = 0 :=
        List.countP_eq_zero.mpr (fun x _ => by simp [Function.comp, psw_plus_minus])
      rw [h0, Nat.add_zero]
      apply countP_ext
      intro x _
      simp [Function.comp, psw_minus_minus, psw_minus_mmm]

theorem countPlus_renderGroup (a b : List String) (g : List Opcode) :
    List.countP (fun l => pyStartsWith l "+" && !(pyStartsWith l "+++")) (renderGroup a b g) =
      List.countP (fun l => !(pyStartsWith l "++")) (g.flatMap (addedOf b)) := by
  unfold renderGroup
  rw [List.countP_cons_of_neg]
  · exact countP_flatMap_eq _ _ _ _ (countPlus_renderOpcode a b) g
  · simp [psw_hunkhdr_plus]

theorem countMinus_renderGroup (a b : List String) (g : List Opcode) :
    List.countP (fun l => pyStartsWith l "-" && !(pyStartsWith l "---")) (renderGroup a b g) =
      List.countP (fun l => !(pyStartsWith l "--")) (g.flatMap (removedOf a)) := by
  unfold renderGroup
  rw [List.countP_cons_of_neg]
  · exact countP_flatMap_eq _ _ _ _ (countMinus_renderOpcode a b) g
  · simp [psw_hunkhdr_minus]

theorem countDiffPlus_unified (a b : List String) (ff tf : String) (n : Nat) :
    countDiffPlus (unified_diff a b ff tf n) =
      List.countP (fun l => !(pyStartsWith l "++")) (addedBodyLines a b n) := by
  unfold countDiffPlus unified_diff addedBodyLines
  by_cases hg : (get_grouped_opcodes a b n).isEmpty = true
  · rw [if_pos hg]
    rw [List.isEmpty_iff.mp hg]
    rfl
  · rw [if_neg hg]
    have h1 : (pyStartsWith ("--- " ++ ff ++ "\n") "+" &&
        !(pyStartsWith ("--- " ++ ff ++ "\n") "+++")) = false := by
      simp [psw_fromhdr_plus]
    have h2 : (pyStartsWith ("+++ " ++ tf ++ "\n") "+" &&
        !(pyStartsWith ("+++ " ++ tf ++ "\n") "+++")) = false := by
      simp [psw_tohdr_plus, psw_tohdr_ppp]
    rw [List.countP_cons, List.countP_cons, h1, h2]
    simp only [Bool.false_eq_true, if_false, Nat.add_zero]
    exact countP_flatMap_eq _ _ _ _ (countPlus_renderGroup a b) _

theorem countDiffMinus_unified (a b : List String) (ff tf : String) (n : Nat) :
    countDiffMinus (unified_diff a b ff tf n) =
      List.countP (fun l => !(pyStartsWith l "--")) (removedBodyLines a b n) := by
  unfold countDiffMinus unified_diff removedBodyLines
  by_cases hg : (get_grouped_opcodes a b n).isEmpty = true
  · rw [if_pos hg]
    rw [List.isEmpty_iff.mp hg]
    rfl
  · rw [if_neg hg]
    have h1 : (pyStartsWith ("--- " ++ ff ++ "\n") "-" &&
        !(pyStartsWith ("--- " ++ ff ++ "\n") "---")) = false := by
      simp [psw_fromhdr_minus, psw_fromhdr_mmm]
    have h2 : (pyStartsWith ("+++ " ++ tf ++ "\n") "-" &&
        !(pyStartsWith ("+++ " ++ tf ++ "\n") "---")) = false := by
      simp [psw_tohdr_minus]
    rw [List.countP_cons, List.countP_cons, h1, h2]
    simp only [Bool.false_eq_true, if_false, Nat.add_zero]
    exact countP_flatMap_eq _ _ _ _ (countMinus_renderGroup a b) _

/-- Claim C2 as amended: for every common path classified as text-modified
with content diffing enabled, `lines_added` equals the number of diff body
lines tagged `added` across all hunks **whose content does not itself begin
with `++`**, and `lines_removed` equals the number of `removed`-tagged body
lines whose content does not begin with `--` (the counts are taken from the
rendered lines by prefix, which excludes the `+++`/`---` file headers and
with them any body line rendering as `+++…`/`---…`). -/
theorem C2_line_counts_amended (ta tb : FsNode FsFile) (cfg : Config)
    (res : List FileDiff × Nat × Nat × Nat) (rel : String) (la lb : List String)
    (hm : rel ∈ commonFiles ta tb cfg)
    (hhash : file_hash (getFile ta rel) ≠ file_hash (getFile tb rel))
    (hba : is_binary rel (getFile ta rel) = false)
    (hbb : is_binary rel (getFile tb rel) = false)
    (hla : read_lines (getFile ta rel) = .ok (some la))
    (hlb : read_lines (getFile tb rel) = .ok (some lb))
    (hsc : cfg.show_content = true)
    (hok : compare_directories ta tb cfg = .ok res) :
    ∃ e ∈ res.1, e.rel_path = rel ∧ e.status = .modified ∧
      e.lines_added =
        List.countP (fun l => !(pyStartsWith l "++")) (addedBodyLines la lb cfg.context_lines) ∧
      e.lines_removed =
        List.countP (fun l => !(pyStartsWith l "--")) (removedBodyLines la lb cfg.context_lines) := by
  obtain ⟨o, hp, hin⟩ := common_entry_exists hok hm
  obtain ⟨sa, sb, _, _, ho⟩ := processCommon_text hhash hba hbb hla hlb hp
  subst ho
  rw [if_pos hsc] at hin
  refine ⟨_, hin _ rfl, rfl, rfl, ?_, ?_⟩
  · exact countDiffPlus_unified la lb ("original/" ++ rel) ("modified/" ++ rel) cfg.context_lines
  · exact countDiffMinus_unified la lb ("original/" ++ rel) ("modified/" ++ rel) cfg.context_lines

/-- Counterexample to claim C2 as stated: at this input the common path `p`
is text-modified with content diffing enabled, its line sequences are
`["a\n"]` and `["++b\n"]`, the diff has exactly one body line tagged
`added` (namely `++b\n`), yet the emitted entry carries `lines_added = 0`. -/
theorem C2_line_counts_counterexample :
    compare_directories wa2 wb2 cfgN = .ok ([r2], 1, 1, 1) ∧
    read_lines (getFile wa2 "p") = .ok (some ["a\n"]) ∧
    read_lines (getFile wb2 "p") = .ok (some ["++b\n"]) ∧
    addedBodyLines ["a\n"] ["++b\n"] cfgN.context_lines = ["++b\n"] ∧
    r2.lines_added = 0 ∧
    (addedBodyLines ["a\n"] ["++b\n"] cfgN.context_lines).length = 1 := by
  refine ⟨?_, by decide, by decide, by decide, rfl, by decide⟩
  decide

/-- Witness for the amended C2 at the counterexample input: the amended
count (added-tagged body lines not starting `++`) is `0`, matching the
entry. -/
theorem C2_line_counts_amended_witness :
    ("p" ∈ commonFiles wa2 wb2 cfgN) ∧
    compare_directories wa2 wb2 cfgN = .ok ([r2], 1, 1, 1) ∧
    (∃ e ∈ (([r2], 1, 1, 1) : List FileDiff × Nat × Nat × Nat).1,
      e.rel_path = "p" ∧ e.status = .modified ∧
      e.lines_added =
        List.countP (fun l => !(pyStartsWith l "++"))
          (addedBodyLines ["a\n"] ["++b\n"] cfgN.context_lines) ∧
      e.lines_removed =
        List.countP (fun l => !(pyStartsWith l "--"))
          (removedBodyLines ["a\n"] ["++b\n"] cfgN.context_lines)) :=
  ⟨by decide, by decide,
    C2_line_counts_amended wa2 wb2 cfgN ([r2], 1, 1, 1) "p" ["a\n"] ["++b\n"]
      (by decide) (by decide) (by decide) (by decide) (by decide) (by decide) rfl (by decide)⟩
